import Mathlib

/-!
Formal model of the branch-coverage plotting pipeline implemented in
`tools/plot_coverage.py` and `tools/plot_graphs_only.py`.

The two scripts share the same per-file logic (the second one merely skips the
aggregation phase), so each function below is a shallow embedding of the code
common to both; line references in the doc comments point into
`tools/plot_coverage.py`.

Modelling conventions:
* Python strings are `List Char`; a text line is its whitespace-separated token
  list `List (List Char)` (the writer joins tokens with single spaces and the
  reader splits on whitespace, which are mutually inverse for the nonempty,
  space-free tokens produced here).
* Python ints are `ℕ`/`ℤ` and Python floats are `ℚ` with exact arithmetic.
* A Python function that can raise an exception is `Option`-valued (`none` is
  the raised exception), and batch loops that an exception would abort return
  the work completed before the abort together with an aborted flag.
-/

/-- Decimal digit character for a digit value below ten, as Python prints it. -/
def digitChar (d : ℕ) : Char :=
  if d = 0 then '0' else if d = 1 then '1' else if d = 2 then '2' else if d = 3 then '3'
  else if d = 4 then '4' else if d = 5 then '5' else if d = 6 then '6' else if d = 7 then '7'
  else if d = 8 then '8' else '9'

/-- Numeric value of a decimal digit character. -/
def charVal (c : Char) : ℕ := c.toNat - 48

/-- Fuel-driven decimal printer: digits of `n`, most significant first.
The fuel only serves structural recursion; any fuel with `n < 10 ^ fuel`
prints `n` completely. -/
def natReprAux : ℕ → ℕ → List Char
  | 0, _ => []
  | _ + 1, 0 => []
  | fuel + 1, n + 1 => natReprAux fuel ((n + 1) / 10) ++ [digitChar ((n + 1) % 10)]

/-- Decimal rendering of a natural number, exactly as Python `str` prints it. -/
def natRepr (n : ℕ) : List Char :=
  if n = 0 then ['0'] else natReprAux n n

/-- Value of a string of decimal digit characters (the inverse of `natRepr`). -/
def parseNatDigits (cs : List Char) : ℕ :=
  cs.foldl (fun a c => 10 * a + charVal c) 0

/-- Decimal rendering of an integer, exactly as Python `str` prints it. -/
def intRepr (z : ℤ) : List Char :=
  if z < 0 then '-' :: natRepr z.natAbs else natRepr z.natAbs

/-- Python `int(token)` on the decimal tokens this pipeline produces. -/
def parseIntTok (cs : List Char) : Option ℤ :=
  if cs.head? = some '-' then
    if cs.tail ≠ [] ∧ cs.tail.all Char.isDigit then some (-(parseNatDigits cs.tail : ℤ)) else none
  else
    if cs ≠ [] ∧ cs.all Char.isDigit then some ((parseNatDigits cs : ℤ)) else none

/-- Python `float(token)` restricted to the plain decimal forms
`digits`, `digits.digits`, `digits.` and `.digits` that this pipeline writes. -/
def parseUFloat (cs : List Char) : Option ℚ :=
  let a := cs.takeWhile (fun c => c ≠ '.')
  let r := cs.dropWhile (fun c => c ≠ '.')
  if r = [] then
    if a ≠ [] ∧ a.all Char.isDigit then some ((parseNatDigits a : ℚ)) else none
  else
    let b := r.tail
    if (a ≠ [] ∨ b ≠ []) ∧ a.all Char.isDigit ∧ b.all Char.isDigit then
      some ((parseNatDigits a : ℚ) + (parseNatDigits b : ℚ) / (10 : ℚ) ^ b.length)
    else none

/-- Python `float(token)` including an optional leading minus sign. -/
def parseFloatTok (cs : List Char) : Option ℚ :=
  if cs.head? = some '-' then (parseUFloat cs.tail).map (fun q => -q)
  else parseUFloat cs

/-- Round to the nearest integer, ties to the even integer, as Python's float
formatting does on the exactly representable values this pipeline handles. -/
def roundHalfEven (q : ℚ) : ℤ :=
  if q - ⌊q⌋ < 1/2 then ⌊q⌋
  else if (1:ℚ)/2 < q - ⌊q⌋ then ⌊q⌋ + 1
  else if ⌊q⌋ % 2 = 0 then ⌊q⌋ else ⌊q⌋ + 1

/-- The value a number prints as under a two-decimal format. -/
def round2 (q : ℚ) : ℚ := (roundHalfEven (100 * q) : ℚ) / 100

/-- Two fixed digits for a value below one hundred. -/
def pad2 (m : ℕ) : List Char := [digitChar (m / 10), digitChar (m % 10)]

/-- Python `f-string` formatting with `:.2f`: the rounded value with exactly two
digits after the decimal point.  (On a negative value rounding to zero Python
prints a `-0.00` sign that this model omits; the pipeline only ever formats
nonnegative averages, where the two agree.) -/
def format2f (q : ℚ) : List Char :=
  let c : ℤ := roundHalfEven (100 * q)
  (if c < 0 then ['-'] else []) ++ natRepr (c.natAbs / 100) ++ '.' :: pad2 (c.natAbs % 100)

/-- The literal first token of an average line. -/
def avgTok : List Char := ['a', 'v', 'g']

/-- A token of a data file line (a maximal whitespace-free character run). -/
abbrev Tok := List Char

/-- A line of a data file, as its token list. -/
abbrev Line := List Tok

/-- One attempted match of the regular expression
`\((\d+) of \d+ branches\)` (plot_coverage.py line 98) at the start of the
text: a literal parenthesis, a nonempty greedy digit run (the capture), the
literal ` of `, a nonempty digit run and the literal ` branches)`. -/
def matchBranchAt (cs : List Char) : Option ℕ :=
  if cs.head? = some '(' then
    let rest := cs.tail
    let ds := rest.takeWhile Char.isDigit
    let r1 := rest.dropWhile Char.isDigit
    if ds = [] then none
    else if (" of ".data).isPrefixOf r1 then
      let r2 := r1.drop 4
      let ds2 := r2.takeWhile Char.isDigit
      let r3 := r2.dropWhile Char.isDigit
      if ds2 = [] then none
      else if (" branches)".data).isPrefixOf r3 then some (parseNatDigits ds)
      else none
    else none
  else none

/-- Python `re.search` of the branch pattern: the leftmost position where
`matchBranchAt` succeeds, or none. -/
def searchBranch : List Char → Option ℕ
  | [] => none
  | c :: rest =>
    match matchBranchAt (c :: rest) with
    | some n => some n
    | none => searchBranch rest

/-- The loop of plot_coverage.py lines 95-100: inspect every third line
(0-indexed 2, 5, 8, ...) and collect each successful branch-pattern capture;
an incomplete trailing group has no third line and is never inspected. -/
def extractLoop : List (List Char) → List ℕ
  | _ :: _ :: c :: rest =>
    (match searchBranch c with
     | some n => n :: extractLoop rest
     | none => extractLoop rest)
  | _ => []

/-- plot_coverage.py lines 89-105, `extract_branch_hit_counts` on the given
file content: the collected counts, or none when nothing was collected
(Python returns `None`, never an empty list).  An unreadable file is modelled
by the caller passing no content at all. -/
def extract_branch_hit_counts (lines : List (List Char)) : Option (List ℕ) :=
  if extractLoop lines = [] then none else some (extractLoop lines)

/-- The raw line sequence of a log made of consecutive 3-line groups. -/
def flattenGroups (gs : List (List Char × List Char × List Char)) : List (List Char) :=
  gs.flatMap (fun g => [g.1, g.2.1, g.2.2])

/-- Generic insertion of one element into a list, before the first element it
compares at-or-below to; the building block of Python's stable `sort`. -/
def insertBy {α : Type} (le : α → α → Bool) (a : α) : List α → List α
  | [] => [a]
  | b :: rest => if le a b then a :: b :: rest else b :: insertBy le a rest

/-- Stable insertion sort, the model of Python's `list.sort(key=...)`. -/
def sortBy {α : Type} (le : α → α → Bool) : List α → List α
  | [] => []
  | a :: rest => insertBy le a (sortBy le rest)

/-- plot_coverage.py line 173: campaigns sorted ascending by integer label. -/
def sortCampaigns (data : List (ℤ × List ℕ)) : List (ℤ × List ℕ) :=
  sortBy (fun p q => decide (p.1 ≤ q.1)) data

/-- plot_coverage.py line 189: the minimum sample length over a table's
campaigns (zero only for the empty table, where the code never asks). -/
def minColumns (data : List (ℤ × List ℕ)) : ℕ :=
  match data.map (fun p => p.2.length) with
  | [] => 0
  | x :: xs => xs.foldl min x

/-- plot_coverage.py lines 193-197: the arithmetic mean of column `i` over the
campaigns.  The `getD` default is never reached: the code only asks for
columns below every campaign's sample length. -/
def colAverage (data : List (ℤ × List ℕ)) (i : ℕ) : ℚ :=
  (data.map (fun p => ((p.2.getD i 0 : ℕ) : ℚ))).sum / (data.length : ℚ)

/-- plot_coverage.py lines 186-203: the average row written for a table, none
when no average line is written (no campaigns, or a shortest sample length of
zero). -/
def averageRow (data : List (ℤ × List ℕ)) : Option (List ℚ) :=
  if data = [] then none
  else if 0 < minColumns data then
    some ((List.range (minColumns data)).map (colAverage data))
  else none

/-- plot_coverage.py lines 180-184: the token list of one campaign line. -/
def campaignLine (p : ℤ × List ℕ) : Line :=
  intRepr p.1 :: p.2.map natRepr

/-- plot_coverage.py lines 199-203: the token list of the average line. -/
def avgLine (avgs : List ℚ) : Line :=
  avgTok :: avgs.map format2f

/-- plot_coverage.py lines 171-203: the content written for one
(target, fuzzer) pair: sorted campaign lines, then the average line when one
is computed. -/
def serializeTable (data : List (ℤ × List ℕ)) : List Line :=
  (sortCampaigns data).map campaignLine ++
    (match averageRow (sortCampaigns data) with
     | some avgs => [avgLine avgs]
     | none => [])

/-- A directory entry inside a target directory (plot_coverage.py lines
154-162): either not a directory (skipped), or a campaign directory carrying
its integer label and the content of its coverage.log, none when that file is
missing or unreadable. -/
inductive CampEntry where
  | nondir : CampEntry
  | cdir : ℤ → Option (List (List Char)) → CampEntry

/-- plot_coverage.py lines 152-168: the (campaign, sample) pairs of one
(target, fuzzer) pair that survive the skips. -/
def qualifying (cs : List CampEntry) : List (ℤ × List ℕ) :=
  cs.filterMap fun c =>
    match c with
    | CampEntry.nondir => none
    | CampEntry.cdir label log =>
      match log with
      | none => none
      | some content => (extract_branch_hit_counts content).map (fun bs => (label, bs))

/-- plot_coverage.py lines 170-207: the data file written for one
(target, fuzzer) pair, none when no campaign qualifies and no file is
written. -/
def collectPair (cs : List CampEntry) : Option (List Line) :=
  if qualifying cs = [] then none else some (serializeTable (qualifying cs))



/-- Python dict update `d[k] = v` on an insertion-ordered map: replace the
value in place when the key is present, append otherwise. -/
def upsertA {β : Type} (m : List (Tok × β)) (k : Tok) (v : β) : List (Tok × β) :=
  match m with
  | [] => [(k, v)]
  | p :: rest => if p.1 = k then (k, v) :: rest else p :: upsertA rest k v

/-- Mapping a fallible conversion over a list, failing as soon as one element
fails — the model of a Python list comprehension whose body can raise. -/
def mapOpt {α β : Type} (f : α → Option β) : List α → Option (List β)
  | [] => some []
  | a :: rest =>
    match f a with
    | none => none
    | some b => (mapOpt f rest).map (fun bs => b :: bs)

/-- The in-memory table read back by plot_branch_graphs: insertion-ordered
campaign entries (labels kept as their raw tokens, values as floats) and the
average row (the last `avg` line seen wins). -/
structure TableData where
  campaigns : List (Tok × List ℚ)
  avg : Option (List ℚ)

/-- plot_coverage.py lines 271-282: the parse loop of plot_branch_graphs.
A blank line is skipped; on any other line the value tokens are converted
with `float` first (a failure raises, modelled as none for the whole parse),
then the line is stored as the average row when its label is `avg` and as a
campaign entry keyed by the raw label otherwise. -/
def deserLoop : List Line → List (Tok × List ℚ) → Option (List ℚ) → Option TableData
  | [], camps, avg => some ⟨camps, avg⟩
  | [] :: rest, camps, avg => deserLoop rest camps avg
  | (label :: toks) :: rest, camps, avg =>
    match mapOpt parseFloatTok toks with
    | none => none
    | some vals =>
      if label = avgTok then deserLoop rest camps (some vals)
      else deserLoop rest (upsertA camps label vals) avg

/-- plot_coverage.py lines 267-282: parse a whole data file. -/
def deserializeTable (lines : List Line) : Option TableData :=
  deserLoop lines [] none





/-- plot_coverage.py line 289, the truthiness test `if avg_data:`: the average
row when it is present and nonempty, none otherwise. -/
def truthyAvg (td : TableData) : Option (List ℚ) :=
  match td.avg with
  | some vs => if vs = [] then none else some vs
  | none => none

/-- plot_coverage.py lines 288-292: the number of plotted points — the (truthy)
average row's length, else the length of the first-read campaign's series
(the `getD` default is unreached: the code asks only when campaigns exist). -/
def renderNumPoints (td : TableData) : ℕ :=
  match truthyAvg td with
  | some vs => vs.length
  | none => ((td.campaigns.head?).map (fun p => p.2.length)).getD 0

/-- plot_coverage.py line 295: the X coordinates, 30 minutes per column. -/
def timePoints (n : ℕ) : List ℕ :=
  (List.range n).map (fun i => i * 30)

/-- plot_coverage.py lines 300-305: the values that drive the Y-axis limits —
every campaign's series truncated to the point count, then the (truthy)
average row. -/
def allValues (td : TableData) (np : ℕ) : List ℚ :=
  (td.campaigns.map (fun p => p.2.take np)).flatten ++
    (match truthyAvg td with
     | some vs => vs
     | none => [])

/-- Python `min(l)` over a nonempty list (0 on the empty list, never asked). -/
def pyMin : List ℚ → ℚ
  | [] => 0
  | v :: vs => vs.foldl min v

/-- Python `max(l)` over a nonempty list (0 on the empty list, never asked). -/
def pyMax : List ℚ → ℚ
  | [] => 0
  | v :: vs => vs.foldl max v

/-- plot_coverage.py lines 318-325 (identically lines 447-454 and the two
copies in plot_graphs_only.py): the Y-axis limits computed from the collected
values, none when there are none (`if all_values:`). -/
def yAxisRange (vals : List ℚ) : Option (ℚ × ℚ) :=
  if vals = [] then none
  else
    let mn := pyMin vals
    let mx := pyMax vals
    let margin := max ((mx - mn) * (1/4)) 50
    let margin2 := if margin = 0 then max 10 (mn * (1/100)) else margin
    some (mn - margin2, mx + margin2)

/-- plot_coverage.py line 308 sort key `int(campaign_num)`; the `getD` default
stands in for the labels `int` rejects, where the code raises — callers test
`labelsOk` first and fail there. -/
def labelKey (l : Tok) : ℤ := (parseIntTok l).getD 0

/-- Whether every campaign label parses as an int; when not, line 308 raises. -/
def labelsOk (td : TableData) : Bool :=
  td.campaigns.all (fun p => (parseIntTok p.1).isSome)

/-- plot_coverage.py lines 307-312: the plotted campaign series, ascending by
integer label, keeping exactly the campaigns with at least `np` values, each
truncated to its first `np` values. -/
def plottedSeries (td : TableData) (np : ℕ) : List (Tok × List ℚ) :=
  (sortBy (fun p q => decide (labelKey p.1 ≤ labelKey q.1)) td.campaigns).filterMap
    (fun p => if np ≤ p.2.length then some (p.1, p.2.take np) else none)

/-- The point count as claim C7 words it: the average row's length whenever an
average row is present — even an empty one — else the first campaign's length.
Written from the claim's words, to compare against `renderNumPoints`. -/
def specPointCount (td : TableData) : ℕ :=
  match td.avg with
  | some a => a.length
  | none => ((td.campaigns.head?).map (fun p => p.2.length)).getD 0

/-- The marker removed from a data file's stem. -/
def bcPat : List Char := "_branch_count".data

/-- Python `stem.replace('_branch_count', '')` (plot_coverage.py line 246):
remove every occurrence, scanning left to right without overlap.  Fuel-driven
for structural recursion; the starting fuel `length` is always enough because
every step consumes at least one character. -/
def deleteBCAux : ℕ → List Char → List Char
  | 0, l => l
  | _ + 1, [] => []
  | fuel + 1, c :: rest =>
    if bcPat.isPrefixOf (c :: rest) then deleteBCAux fuel (rest.drop (bcPat.length - 1))
    else c :: deleteBCAux fuel rest

/-- Python `stem.replace('_branch_count', '')`, see `deleteBCAux`. -/
def deleteBC (l : List Char) : List Char := deleteBCAux l.length l

/-- Python `filename.rsplit('_', 1)` (plot_coverage.py line 247): split at the
last underscore; none models the one-part result when there is no underscore,
which the caller skips with a warning. -/
def rsplitUnderscore (cs : List Char) : Option (List Char × List Char) :=
  match cs.reverse.dropWhile (fun c => c ≠ '_') with
  | [] => none
  | _ :: beforeRev =>
    some (beforeRev.reverse, (cs.reverse.takeWhile (fun c => c ≠ '_')).reverse)

/-- plot_coverage.py lines 246-254: decode a data file's stem into the target
and fuzzer names — remove every `_branch_count`, then split at the last
underscore. -/
def decodeStem (stem : List Char) : Option (List Char × List Char) :=
  rsplitUnderscore (deleteBC stem)

/-- One rendered per-(target, fuzzer) chart: the blue campaign lines, the red
average line, the Y-axis limits and the X-axis end. -/
structure Chart where
  target : Tok
  fuzzer : Tok
  series : List (Tok × List ℚ)
  avgSeries : Option (List ℚ)
  yRange : Option (ℚ × ℚ)
  xMax : ℕ

/-- The outcome of one file inside the plot_branch_graphs loop. -/
inductive FileOutcome where
  | skipped : FileOutcome
  | failed : FileOutcome
  | rendered : Chart → FileOutcome

/-- plot_coverage.py lines 243-349, one file of the plot loop, on the file's
stem and token lines: skipped on an undecodable name, empty content or no
campaign entries; failed exactly where the code raises — a float conversion
error while parsing, a non-integer label in the line-308 sort, or the line-328
`time_points[-1]` on an empty list; otherwise the rendered chart. -/
def renderFile (stem : List Char) (lines : List Line) : FileOutcome :=
  match decodeStem stem with
  | none => FileOutcome.skipped
  | some tf =>
    if lines = [] then FileOutcome.skipped
    else
      match deserializeTable lines with
      | none => FileOutcome.failed
      | some td =>
        if td.campaigns = [] then FileOutcome.skipped
        else
          let np := renderNumPoints td
          if labelsOk td = false then FileOutcome.failed
          else
            match (timePoints np).getLast? with
            | none => FileOutcome.failed
            | some last =>
              FileOutcome.rendered
                { target := tf.1, fuzzer := tf.2, series := plottedSeries td np,
                  avgSeries := truthyAvg td, yRange := yAxisRange (allValues td np),
                  xMax := last }

/-- plot_coverage.py lines 235-349: the loop over the sorted data files.  The
first component collects the charts saved, in order; the second flag records
whether an exception aborted the batch (losing every later file). -/
def plot_branch_graphs : List (List Char × List Line) → List Chart × Bool
  | [] => ([], false)
  | f :: rest =>
    match renderFile f.1 f.2 with
    | FileOutcome.failed => ([], true)
    | FileOutcome.skipped => plot_branch_graphs rest
    | FileOutcome.rendered c =>
      ((c :: (plot_branch_graphs rest).1), (plot_branch_graphs rest).2)







/-- Assoc-list lookup, Python's `dict[key]` / `key in dict`. -/
def lookupA {β : Type} : List (Tok × β) → Tok → Option β
  | [], _ => none
  | p :: rest, k => if p.1 = k then some p.2 else lookupA rest k

/-- The nested map target → fuzzer → average row built by
plot_comparison_graphs (line 374). -/
abbrev CompMap := List (Tok × List (Tok × List ℚ))

/-- An insertion-ordered map whose keys are distinct at both nesting levels —
what the two Python dict levels guarantee by construction. -/
def GoodMap (m : CompMap) : Prop :=
  (m.map Prod.fst).Nodup ∧ ∀ p ∈ m, (p.2.map Prod.fst).Nodup

/-- plot_coverage.py lines 400-408: the value tokens of the first `avg` line
of a file, scanning past blank and non-`avg` lines (whose values are never
parsed). -/
def firstAvgLine : List Line → Option (List Tok)
  | [] => none
  | [] :: rest => firstAvgLine rest
  | (label :: toks) :: rest =>
    if label = avgTok then some toks else firstAvgLine rest

/-- plot_coverage.py lines 376-415: what one file contributes to the
comparison pass — nothing for an undecodable name, empty content or no `avg`
line; an error when a value of the `avg` line fails float conversion (the
exception aborts the whole pass); else the decoded target and fuzzer names
with the parsed average row. -/
def compParseFile (stem : List Char) (lines : List Line) :
    Except Unit (Option (Tok × Tok × List ℚ)) :=
  match decodeStem stem with
  | none => Except.ok none
  | some tf =>
    if lines = [] then Except.ok none
    else
      match firstAvgLine lines with
      | none => Except.ok none
      | some toks =>
        match mapOpt parseFloatTok toks with
        | none => Except.error ()
        | some vals => Except.ok (some (tf.1, tf.2, vals))

/-- plot_coverage.py lines 417-420:
`target_fuzzers[target][fuzzer] = (avg_data, time_points)` with on-demand
creation of the inner dict. -/
def compInsert (m : CompMap) (t fz : Tok) (a : List ℚ) : CompMap :=
  upsertA m t (upsertA ((lookupA m t).getD []) fz a)

/-- plot_coverage.py lines 376-420: the collection pass over the sorted data
files. -/
def compCollect : List (List Char × List Line) → CompMap → Except Unit CompMap
  | [], m => Except.ok m
  | f :: rest, m =>
    match compParseFile f.1 f.2 with
    | Except.error _ => Except.error ()
    | Except.ok none => compCollect rest m
    | Except.ok (some (t, fz, a)) => compCollect rest (compInsert m t fz a)

/-- Python string comparison: lexicographic by code point. -/
def lexLe : List Char → List Char → Bool
  | [], _ => true
  | _ :: _, [] => false
  | a :: as, b :: bs =>
    if a.toNat < b.toNat then true
    else if b.toNat < a.toNat then false
    else lexLe as bs

/-- One rendered comparison chart: the per-fuzzer average lines as
(fuzzer, color, series) in sorted fuzzer order, the Y-axis limits and the
X-axis end. -/
structure CompChart where
  lines : List (Tok × Tok × List ℚ)
  yRange : Option (ℚ × ℚ)
  xMax : ℕ

/-- plot_coverage.py line 441: the fixed 8-color palette of the comparison
chart. -/
def palette : List Tok :=
  ["red".data, "blue".data, "green".data, "orange".data, "purple".data,
   "brown".data, "pink".data, "gray".data]

/-- plot_coverage.py lines 442-445: one average-only line per fuzzer, in
sorted fuzzer order, colored by cycling through the palette. -/
def compLines (fs : List (Tok × List ℚ)) : List (Tok × Tok × List ℚ) :=
  (sortBy (fun p q => lexLe p.1 q.1) fs).enum.map
    (fun p => (p.2.1, palette.getD (p.1 % palette.length) [], p.2.2))

/-- plot_coverage.py lines 431-457, one target's comparison chart from its
collected fuzzer map.  Line 457 reads `time_points[-1]` from the loop
variable left by the last-iterated (sorted-last) fuzzer; when that fuzzer's
average row is empty the index raises, modelled as the error case. -/
def renderComparison (fs : List (Tok × List ℚ)) : Except Unit CompChart :=
  match (sortBy (fun p q => lexLe p.1 q.1) fs).getLast? with
  | none => Except.error ()
  | some lastF =>
    match (timePoints lastF.2.length).getLast? with
    | none => Except.error ()
    | some x =>
      Except.ok
        { lines := compLines fs,
          yRange := yAxisRange (((sortBy (fun p q => lexLe p.1 q.1) fs).map Prod.snd).flatten),
          xMax := x }

/-- plot_coverage.py lines 423-477: the chart loop over the given targets,
skipping every target with at most one fuzzer; an exception aborts the loop,
keeping the charts already saved. -/
def compLoop (m : CompMap) : List Tok → List (Tok × CompChart) × Bool
  | [] => ([], false)
  | t :: rest =>
    if ((lookupA m t).getD []).length ≤ 1 then compLoop m rest
    else
      match renderComparison ((lookupA m t).getD []) with
      | Except.error _ => ([], true)
      | Except.ok c => (((t, c) :: (compLoop m rest).1), (compLoop m rest).2)

/-- plot_coverage.py lines 352-480, plot_comparison_graphs over the sorted
data files: the comparison charts produced, in sorted target order, and a
flag recording that an exception aborted the run. -/
def plot_comparison_graphs (files : List (List Char × List Line)) :
    List (Tok × CompChart) × Bool :=
  match compCollect files [] with
  | Except.error _ => ([], true)
  | Except.ok m => compLoop m (sortBy lexLe (m.map Prod.fst))

/-- The count claim C6 speaks of, written from its words: the data files whose
decoded target is `t` and whose content contains an average row. -/
def tableFilesWithAvgRow (t : Tok) (files : List (List Char × List Line)) : ℕ :=
  (files.filter (fun f =>
    decide ((decodeStem f.1).map Prod.fst = some t) && (firstAvgLine f.2).isSome)).length







/-- A directory entry inside a fuzzer directory (plot_coverage.py lines
146-149): either not a directory (skipped) or a target directory with its
campaign entries. -/
inductive TargetEntry where
  | nondir : TargetEntry
  | tdir : List Char → List CampEntry → TargetEntry

/-- A directory entry inside the coverage directory (plot_coverage.py lines
141-144): either not a directory (skipped) or a fuzzer directory with its
target entries. -/
inductive FuzzerEntry where
  | nondir : FuzzerEntry
  | fdir : List Char → List TargetEntry → FuzzerEntry

/-- plot_coverage.py lines 20-45, check_coverage_directory: true exactly when
the coverage directory exists (none models a missing directory) and has at
least one entry of any kind. -/
def check_coverage_directory : Option (List FuzzerEntry) → Bool
  | none => false
  | some [] => false
  | some (_ :: _) => true

/-- plot_coverage.py lines 108-209, collect_and_save_branch_data: walk
fuzzer → target, write one data file per (target, fuzzer) pair with at least
one qualifying campaign, under the stem `<target>_<fuzzer>_branch_count`. -/
def collect_and_save_branch_data (fs : List FuzzerEntry) : List (List Char × List Line) :=
  fs.flatMap fun fe =>
    match fe with
    | FuzzerEntry.nondir => []
    | FuzzerEntry.fdir fname targets =>
      targets.flatMap fun te =>
        match te with
        | TargetEntry.nondir => []
        | TargetEntry.tdir tname cs =>
          match collectPair cs with
          | none => []
          | some tbl => [(tname ++ '_' :: fname ++ bcPat, tbl)]

/-- plot_coverage.py lines 483-512, main: exit with status 1 when the
coverage-directory check fails, before any table is written or chart is
rendered — the error result carries no outputs; otherwise write the data
files, render the per-pair charts, then the comparison charts. -/
def mainRun (cov : Option (List FuzzerEntry)) :
    Except ℕ (List (List Char × List Line) × (List Chart × Bool) ×
      (List (Tok × CompChart) × Bool)) :=
  if check_coverage_directory cov = false then Except.error 1
  else
    match cov with
    | none => Except.error 1
    | some fs =>
      Except.ok (collect_and_save_branch_data fs,
        plot_branch_graphs (collect_and_save_branch_data fs),
        plot_comparison_graphs (collect_and_save_branch_data fs))

theorem charVal_digitChar {d : ℕ} (h : d < 10) : charVal (digitChar d) = d := by
  interval_cases d <;> rfl

theorem isDigit_digitChar {d : ℕ} (h : d < 10) : (digitChar d).isDigit = true := by
  interval_cases d <;> rfl

theorem mem_natReprAux_isDigit : ∀ fuel n c, c ∈ natReprAux fuel n → c.isDigit = true := by
  intro fuel
  induction fuel with
  | zero => intro n c hc; simp [natReprAux] at hc
  | succ fuel ih =>
    intro n c hc
    cases n with
    | zero => simp [natReprAux] at hc
    | succ n =>
      simp only [natReprAux, List.mem_append, List.mem_singleton] at hc
      rcases hc with hc | hc
      · exact ih _ _ hc
      · subst hc; exact isDigit_digitChar (Nat.mod_lt _ (by norm_num))

theorem mem_natRepr_isDigit {n : ℕ} {c : Char} (hc : c ∈ natRepr n) : c.isDigit = true := by
  unfold natRepr at hc
  split at hc
  · simp at hc; subst hc; rfl
  · exact mem_natReprAux_isDigit _ _ _ hc

theorem parseNatDigits_append (xs : List Char) (c : Char) :
    parseNatDigits (xs ++ [c]) = 10 * parseNatDigits xs + charVal c := by
  simp [parseNatDigits, List.foldl_append]

theorem parseNatDigits_natReprAux : ∀ fuel n, n < 10 ^ fuel →
    parseNatDigits (natReprAux fuel n) = n := by
  intro fuel
  induction fuel with
  | zero => intro n hn; interval_cases n; rfl
  | succ fuel ih =>
    intro n hn
    cases n with
    | zero => rfl
    | succ n =>
      rw [natReprAux, parseNatDigits_append, ih _ ?_,
        charVal_digitChar (Nat.mod_lt _ (by norm_num)), Nat.div_add_mod]
      have : (10 : ℕ) ^ (fuel + 1) = 10 ^ fuel * 10 := by ring
      exact Nat.div_lt_of_lt_mul (by omega)

theorem parseNatDigits_natRepr (n : ℕ) : parseNatDigits (natRepr n) = n := by
  unfold natRepr
  split
  · subst n; rfl
  · exact parseNatDigits_natReprAux n n (Nat.lt_pow_self (by norm_num) n)

theorem natReprAux_ne_nil {fuel n : ℕ} (h0 : 0 < n) (hf : 0 < fuel) :
    natReprAux fuel n ≠ [] := by
  cases fuel with
  | zero => omega
  | succ fuel =>
    cases n with
    | zero => omega
    | succ n => simp [natReprAux]

theorem natRepr_ne_nil (n : ℕ) : natRepr n ≠ [] := by
  unfold natRepr
  split
  · simp
  · exact natReprAux_ne_nil (by omega) (by omega)

theorem natRepr_head_isDigit {n : ℕ} {c : Char} {t : List Char} (h : natRepr n = c :: t) :
    c.isDigit = true :=
  mem_natRepr_isDigit (by rw [h]; exact List.mem_cons_self c t)

theorem natRepr_head?_ne_minus (n : ℕ) : (natRepr n).head? ≠ some '-' := by
  cases h : natRepr n with
  | nil => exact absurd h (natRepr_ne_nil n)
  | cons c t =>
    have := natRepr_head_isDigit h
    simp only [List.head?_cons, ne_eq, Option.some.injEq]
    intro hc
    subst hc
    simp at this

theorem isDigit_ne_dot {c : Char} (h : c.isDigit = true) : c ≠ '.' := by
  intro hc; subst hc; simp at h

theorem takeWhile_append_cons {α : Type} (p : α → Bool) :
    ∀ (a : List α) (x : α) (r : List α), (∀ c ∈ a, p c = true) → p x = false →
      (a ++ x :: r).takeWhile p = a := by
  intro a
  induction a with
  | nil => intro x r _ hx; simp [List.takeWhile, hx]
  | cons c t ih =>
    intro x r ha hx
    have hc : p c = true := ha c (List.mem_cons_self c t)
    rw [List.cons_append, List.takeWhile_cons, if_pos hc,
      ih x r (fun d hd => ha d (List.mem_cons_of_mem c hd)) hx]

theorem dropWhile_append_cons {α : Type} (p : α → Bool) :
    ∀ (a : List α) (x : α) (r : List α), (∀ c ∈ a, p c = true) → p x = false →
      (a ++ x :: r).dropWhile p = x :: r := by
  intro a
  induction a with
  | nil => intro x r _ hx; simp [List.dropWhile, hx]
  | cons c t ih =>
    intro x r ha hx
    have hc : p c = true := ha c (List.mem_cons_self c t)
    simp only [List.cons_append, List.dropWhile, hc]
    exact ih x r (fun d hd => ha d (List.mem_cons_of_mem c hd)) hx

theorem takeWhile_of_all {α : Type} (p : α → Bool) :
    ∀ (l : List α), (∀ c ∈ l, p c = true) → l.takeWhile p = l := by
  intro l
  induction l with
  | nil => intro _; rfl
  | cons c t ih =>
    intro hl
    have hc : p c = true := hl c (List.mem_cons_self c t)
    simp only [List.takeWhile, hc]
    rw [ih (fun d hd => hl d (List.mem_cons_of_mem c hd))]

theorem dropWhile_of_all {α : Type} (p : α → Bool) :
    ∀ (l : List α), (∀ c ∈ l, p c = true) → l.dropWhile p = [] := by
  intro l
  induction l with
  | nil => intro _; rfl
  | cons c t ih =>
    intro hl
    have hc : p c = true := hl c (List.mem_cons_self c t)
    simp only [List.dropWhile, hc]
    exact ih (fun d hd => hl d (List.mem_cons_of_mem c hd))

theorem parseUFloat_digits {cs : List Char} (hne : cs ≠ [])
    (hd : ∀ c ∈ cs, c.isDigit = true) :
    parseUFloat cs = some ((parseNatDigits cs : ℚ)) := by
  have hall : ∀ c ∈ cs, (fun c => decide (c ≠ '.')) c = true := by
    intro c hc
    simp only [decide_eq_true_eq]
    exact isDigit_ne_dot (hd c hc)
  unfold parseUFloat
  simp only [takeWhile_of_all _ cs hall, dropWhile_of_all _ cs hall, if_true]
  rw [if_pos]
  exact ⟨hne, List.all_eq_true.mpr hd⟩

theorem parseFloatTok_natRepr (n : ℕ) : parseFloatTok (natRepr n) = some ((n : ℚ)) := by
  unfold parseFloatTok
  rw [if_neg (natRepr_head?_ne_minus n),
    parseUFloat_digits (natRepr_ne_nil n) (fun c hc => mem_natRepr_isDigit hc),
    parseNatDigits_natRepr]

theorem parseNatDigits_pad2 {m : ℕ} (h : m < 100) : parseNatDigits (pad2 m) = m := by
  have h1 : m / 10 < 10 := by omega
  have h2 : m % 10 < 10 := Nat.mod_lt _ (by norm_num)
  simp [pad2, parseNatDigits, charVal_digitChar h1, charVal_digitChar h2]
  omega

theorem roundHalfEven_nonneg {q : ℚ} (h : 0 ≤ q) : 0 ≤ roundHalfEven q := by
  have hf : (0:ℤ) ≤ ⌊q⌋ := Int.floor_nonneg.mpr h
  unfold roundHalfEven
  split
  · exact hf
  · split
    · omega
    · split
      · exact hf
      · omega

theorem parseFloatTok_format2f {q : ℚ} (h : 0 ≤ q) :
    parseFloatTok (format2f q) = some (round2 q) := by
  have hc : 0 ≤ roundHalfEven (100 * q) := roundHalfEven_nonneg (by positivity)
  simp only [format2f]
  rw [if_neg (by omega)]
  set m : ℕ := (roundHalfEven (100 * q)).natAbs with hm
  simp only [List.nil_append]
  have hdigits : ∀ c ∈ natRepr (m / 100), (fun c => decide (c ≠ '.')) c = true := by
    intro c hcm
    simp only [decide_eq_true_eq]
    exact isDigit_ne_dot (mem_natRepr_isDigit hcm)
  unfold parseFloatTok
  rw [if_neg ?hmin]
  case hmin =>
    have : (natRepr (m / 100) ++ '.' :: pad2 (m % 100)).head? = (natRepr (m / 100)).head? := by
      cases hrep : natRepr (m / 100) with
      | nil => exact absurd hrep (natRepr_ne_nil _)
      | cons c t => simp
    rw [this]
    exact natRepr_head?_ne_minus _
  unfold parseUFloat
  rw [takeWhile_append_cons _ _ _ _ hdigits (by simp),
    dropWhile_append_cons _ _ _ _ hdigits (by simp)]
  simp only [List.tail_cons]
  rw [if_neg (by simp), if_pos ?hcond]
  case hcond =>
    refine ⟨Or.inl (natRepr_ne_nil _), List.all_eq_true.mpr ?_, List.all_eq_true.mpr ?_⟩
    · exact fun c hcm => mem_natRepr_isDigit hcm
    · intro c hcm
      simp only [pad2, List.mem_cons, List.mem_singleton] at hcm
      rcases hcm with hcm | hcm | hcm
      · subst hcm; exact isDigit_digitChar (by omega)
      · subst hcm; exact isDigit_digitChar (Nat.mod_lt _ (by norm_num))
      · simp at hcm
  have hlen : (pad2 (m % 100)).length = 2 := rfl
  rw [parseNatDigits_natRepr, parseNatDigits_pad2 (Nat.mod_lt _ (by norm_num)), hlen]
  congr 1
  have h100 := Nat.div_add_mod m 100
  have hsplit : (m : ℚ) = ((m / 100 : ℕ) : ℚ) * 100 + ((m % 100 : ℕ) : ℚ) := by
    calc (m : ℚ) = ((100 * (m / 100) + m % 100 : ℕ) : ℚ) := by rw [h100]
    _ = _ := by push_cast; ring
  have hmz : ((m : ℤ)) = roundHalfEven (100 * q) := by
    rw [hm]
    exact Int.natAbs_of_nonneg hc
  have hmq : ((m : ℚ)) = ((roundHalfEven (100 * q) : ℤ) : ℚ) := by
    exact_mod_cast hmz
  unfold round2
  rw [← hmq, hsplit]
  ring

theorem intRepr_head?_cases (z : ℤ) :
    (intRepr z).head? = some '-' ∨ ∃ c t, intRepr z = c :: t ∧ c.isDigit = true := by
  unfold intRepr
  split
  · left; rfl
  · right
    cases hrep : natRepr z.natAbs with
    | nil => exact absurd hrep (natRepr_ne_nil _)
    | cons c t => exact ⟨c, t, rfl, natRepr_head_isDigit hrep⟩

theorem intRepr_ne_avgTok (z : ℤ) : intRepr z ≠ avgTok := by
  intro hz
  rcases intRepr_head?_cases z with h | ⟨c, t, heq, hdig⟩
  · rw [hz] at h; simp [avgTok] at h
  · rw [hz] at heq
    simp only [avgTok] at heq
    injection heq with h1 h2
    rw [← h1] at hdig
    simp at hdig

theorem parseIntTok_intRepr (z : ℤ) : parseIntTok (intRepr z) = some z := by
  unfold parseIntTok intRepr
  split
  case isTrue hz =>
    rw [if_pos (by simp), List.tail_cons, if_pos]
    · rw [parseNatDigits_natRepr]
      congr 1
      omega
    · exact ⟨natRepr_ne_nil _, List.all_eq_true.mpr (fun c hc => mem_natRepr_isDigit hc)⟩
  case isFalse hz =>
    rw [if_neg (natRepr_head?_ne_minus _), if_pos]
    · rw [parseNatDigits_natRepr]
      congr 1
      omega
    · exact ⟨natRepr_ne_nil _, List.all_eq_true.mpr (fun c hc => mem_natRepr_isDigit hc)⟩

theorem intRepr_injective : Function.Injective intRepr := by
  intro a b hab
  have ha := parseIntTok_intRepr a
  have hb := parseIntTok_intRepr b
  rw [hab, hb] at ha
  exact (Option.some.inj ha).symm

theorem extractLoop_flattenGroups (gs : List (List Char × List Char × List Char)) :
    extractLoop (flattenGroups gs) = gs.filterMap (fun g => searchBranch g.2.2) := by
  induction gs with
  | nil => rfl
  | cons g rest ih =>
    have hflat : flattenGroups (g :: rest) = g.1 :: g.2.1 :: g.2.2 :: flattenGroups rest := by
      simp [flattenGroups]
    rw [hflat, extractLoop, List.filterMap_cons]
    cases searchBranch g.2.2 with
    | none => simpa using ih
    | some n => simpa using ih

theorem insertBy_perm {α : Type} (le : α → α → Bool) (a : α) :
    ∀ l : List α, List.Perm (insertBy le a l) (a :: l) := by
  intro l
  induction l with
  | nil => rfl
  | cons b rest ih =>
    rw [insertBy]
    split
    · rfl
    · exact List.Perm.trans (List.Perm.cons b ih) (List.Perm.swap a b rest)

theorem sortBy_perm {α : Type} (le : α → α → Bool) :
    ∀ l : List α, List.Perm (sortBy le l) l := by
  intro l
  induction l with
  | nil => rfl
  | cons a rest ih =>
    rw [sortBy]
    exact List.Perm.trans (insertBy_perm le a _) (List.Perm.cons a ih)

theorem mem_sortBy {α : Type} (le : α → α → Bool) (x : α) (l : List α) :
    x ∈ sortBy le l ↔ x ∈ l :=
  (sortBy_perm le l).mem_iff

theorem mem_insertBy {α : Type} (le : α → α → Bool) (x a : α) (l : List α) :
    x ∈ insertBy le a l ↔ x = a ∨ x ∈ l := by
  rw [(insertBy_perm le a l).mem_iff, List.mem_cons]

theorem pairwise_insertBy {α : Type} (le : α → α → Bool)
    (htot : ∀ x y, le x y = true ∨ le y x = true)
    (htrans : ∀ x y z, le x y = true → le y z = true → le x z = true) :
    ∀ (a : α) (l : List α), l.Pairwise (fun x y => le x y = true) →
      (insertBy le a l).Pairwise (fun x y => le x y = true) := by
  intro a l
  induction l with
  | nil => intro _; simp [insertBy]
  | cons b rest ih =>
    intro hp
    rw [List.pairwise_cons] at hp
    obtain ⟨hb, hrest⟩ := hp
    rw [insertBy]
    split
    case isTrue hab =>
      rw [List.pairwise_cons]
      refine ⟨?_, List.pairwise_cons.mpr ⟨hb, hrest⟩⟩
      intro x hx
      rcases List.mem_cons.mp hx with hx | hx
      · subst hx; exact hab
      · exact htrans a b x hab (hb x hx)
    case isFalse hab =>
      rw [List.pairwise_cons]
      refine ⟨?_, ih hrest⟩
      intro x hx
      rcases (mem_insertBy le x a rest).mp hx with hx | hx
      · subst hx
        rcases htot x b with h | h
        · exact absurd h hab
        · exact h
      · exact hb x hx

theorem pairwise_sortBy {α : Type} (le : α → α → Bool)
    (htot : ∀ x y, le x y = true ∨ le y x = true)
    (htrans : ∀ x y z, le x y = true → le y z = true → le x z = true) :
    ∀ l : List α, (sortBy le l).Pairwise (fun x y => le x y = true) := by
  intro l
  induction l with
  | nil => exact List.Pairwise.nil
  | cons a rest ih => exact pairwise_insertBy le htot htrans a _ ih

theorem minColumns_cons (p : ℤ × List ℕ) (rest : List (ℤ × List ℕ)) :
    minColumns (p :: rest) = (rest.map (fun q => q.2.length)).foldl min p.2.length := rfl

theorem foldl_min_pos : ∀ (xs : List ℕ) (x : ℕ), 0 < x → (∀ y ∈ xs, 0 < y) →
    0 < xs.foldl min x := by
  intro xs
  induction xs with
  | nil => intro x hx _; exact hx
  | cons y ys ih =>
    intro x hx hall
    rw [List.foldl_cons]
    exact ih _ (lt_min hx (hall y (List.mem_cons_self y ys)))
      (fun z hz => hall z (List.mem_cons_of_mem y hz))

theorem minColumns_pos {data : List (ℤ × List ℕ)} (h1 : data ≠ [])
    (h2 : ∀ p ∈ data, p.2 ≠ []) : 0 < minColumns data := by
  cases data with
  | nil => exact absurd rfl h1
  | cons p rest =>
    rw [minColumns_cons]
    apply foldl_min_pos
    · exact List.length_pos.mpr (h2 p (List.mem_cons_self p rest))
    · intro y hy
      rw [List.mem_map] at hy
      obtain ⟨q, hq, hyq⟩ := hy
      subst hyq
      exact List.length_pos.mpr (h2 q (List.mem_cons_of_mem p hq))

theorem extract_ne_some_nil (lines : List (List Char)) :
    extract_branch_hit_counts lines ≠ some [] := by
  unfold extract_branch_hit_counts
  split
  · simp
  · case isFalse h => simp [h]

theorem extract_mem_qualifying {cs : List CampEntry} {p : ℤ × List ℕ}
    (hp : p ∈ qualifying cs) : p.2 ≠ [] := by
  unfold qualifying at hp
  rw [List.mem_filterMap] at hp
  obtain ⟨c, -, hc⟩ := hp
  cases c with
  | nondir => simp at hc
  | cdir label log =>
    cases log with
    | none => simp at hc
    | some content =>
      simp only [Option.map_eq_some'] at hc
      obtain ⟨bs, hbs, hpbs⟩ := hc
      intro hnil
      rw [← hpbs] at hnil
      simp only at hnil
      rw [hnil] at hbs
      exact extract_ne_some_nil content hbs

/-- C3: for a table built from at least one qualifying campaign (every stored
sample being nonempty), the average row exists, its length is the minimum
sample length over the campaigns, and each entry is the arithmetic mean of the
campaigns' values in that column; columns beyond the minimum length contribute
nothing, since the row stops there. -/
theorem average_row_is_truncated_mean (data : List (ℤ × List ℕ))
    (h1 : data ≠ []) (h2 : ∀ p ∈ data, p.2 ≠ []) :
    ∃ a, averageRow data = some a ∧ a.length = minColumns data ∧
      ∀ i, (hi : i < a.length) → a.get ⟨i, hi⟩ =
        (data.map (fun p => ((p.2.getD i 0 : ℕ) : ℚ))).sum / (data.length : ℚ) := by
  have hmin := minColumns_pos h1 h2
  refine ⟨(List.range (minColumns data)).map (colAverage data), ?_, ?_, ?_⟩
  · unfold averageRow
    rw [if_neg h1, if_pos hmin]
  · simp
  · intro i hi
    simp only [List.get_eq_getElem, List.getElem_map, List.getElem_range, colAverage]

/-- C3 witness: for campaigns of sample lengths 5, 7 and 3 the average row has
exactly 3 columns, each the mean of the campaigns' first 3 columns. -/
theorem average_row_is_truncated_mean_witness :
    (∃ a, averageRow [(1, [10, 20, 30, 40, 50]), (2, [1, 2, 3, 4, 5, 6, 7]), (3, [4, 5, 6])]
        = some a ∧
      a.length = minColumns [(1, [10, 20, 30, 40, 50]), (2, [1, 2, 3, 4, 5, 6, 7]), (3, [4, 5, 6])] ∧
      ∀ i, (hi : i < a.length) → a.get ⟨i, hi⟩ =
        (([(1, [10, 20, 30, 40, 50]), (2, [1, 2, 3, 4, 5, 6, 7]),
          ((3 : ℤ), [4, 5, 6])].map (fun p => ((p.2.getD i 0 : ℕ) : ℚ))).sum) / 3) ∧
    minColumns [(1, [10, 20, 30, 40, 50]), (2, [1, 2, 3, 4, 5, 6, 7]), (3, [4, 5, 6])] = 3 := by
  constructor
  · have := average_row_is_truncated_mean
      [(1, [10, 20, 30, 40, 50]), (2, [1, 2, 3, 4, 5, 6, 7]), (3, [4, 5, 6])]
      (by decide) (by decide)
    simpa using this
  · decide

theorem filterMap_search_all_some :
    ∀ (gs : List (List Char × List Char × List Char)) (ns : List ℕ),
      gs.length = ns.length →
      (∀ i, (hi : i < gs.length) → searchBranch (gs.get ⟨i, hi⟩).2.2 = ns[i]?) →
      gs.filterMap (fun g => searchBranch g.2.2) = ns := by
  intro gs
  induction gs with
  | nil =>
    intro ns hlen _
    simp only [List.length_nil] at hlen
    rw [List.length_eq_zero.mp hlen.symm]
    rfl
  | cons g gs ih =>
    intro ns hlen hm
    cases ns with
    | nil => simp at hlen
    | cons n ns =>
      have h0 := hm 0 (by simp)
      simp only [List.get, List.getElem?_cons_zero] at h0
      rw [List.filterMap_cons, h0]
      have hrec := ih ns (by simpa using hlen) ?_
      · rw [hrec]
      · intro i hi
        have := hm (i + 1) (by simpa using Nat.succ_lt_succ hi)
        simpa using this

/-- C4: for a readable log consisting of `k` consecutive 3-line groups, the
parser inspects only each group's third line.  First part: when every group's
third line matches the branch pattern (and there is at least one group), the
result is exactly the `k` captured counts, in group order.  Second part: a
group whose third line does not match contributes no value at all — it is
skipped, not zero-filled. -/
theorem extract_is_per_group_captures :
    (∀ (gs : List (List Char × List Char × List Char)) (ns : List ℕ),
      gs.length = ns.length → 0 < gs.length →
      (∀ i, (hi : i < gs.length) → searchBranch (gs.get ⟨i, hi⟩).2.2 = ns[i]?) →
      extract_branch_hit_counts (flattenGroups gs) = some ns) ∧
    (∀ (gs1 gs2 : List (List Char × List Char × List Char))
       (g : List Char × List Char × List Char), searchBranch g.2.2 = none →
      extract_branch_hit_counts (flattenGroups (gs1 ++ g :: gs2)) =
        extract_branch_hit_counts (flattenGroups (gs1 ++ gs2))) := by
  constructor
  · intro gs ns hlen hpos hm
    have hfm := filterMap_search_all_some gs ns hlen hm
    have hns : ns ≠ [] := by
      intro h
      rw [h] at hlen
      simp only [List.length_nil] at hlen
      omega
    unfold extract_branch_hit_counts
    rw [extractLoop_flattenGroups, hfm, if_neg hns]
  · intro gs1 gs2 g hnone
    have hfm : List.filterMap (fun g => searchBranch g.2.2) (gs1 ++ g :: gs2)
        = List.filterMap (fun g => searchBranch g.2.2) (gs1 ++ gs2) := by
      simp [List.filterMap_append, List.filterMap_cons, hnone]
    unfold extract_branch_hit_counts
    rw [extractLoop_flattenGroups, extractLoop_flattenGroups, hfm]

/-- C4 witness: a two-group log whose branch lines capture 55 and 60 parses to
exactly those two counts, in order. -/
theorem extract_is_per_group_captures_witness :
    extract_branch_hit_counts (flattenGroups
      [("lines.......: 50.0% (100 of 200 lines)".data,
        "functions...: 40.0% (20 of 50 functions)".data,
        "branches....: 25.0% (55 of 220 branches)".data),
       ("lines.......: 55.0% (110 of 200 lines)".data,
        "functions...: 44.0% (22 of 50 functions)".data,
        "branches....: 27.2% (60 of 220 branches)".data)]) = some [55, 60] :=
  extract_is_per_group_captures.1
    [("lines.......: 50.0% (100 of 200 lines)".data,
      "functions...: 40.0% (20 of 50 functions)".data,
      "branches....: 25.0% (55 of 220 branches)".data),
     ("lines.......: 55.0% (110 of 200 lines)".data,
      "functions...: 44.0% (22 of 50 functions)".data,
      "branches....: 27.2% (60 of 220 branches)".data)]
    [55, 60] (by decide) (by decide) (by decide)

theorem sortCampaigns_ne_nil {data : List (ℤ × List ℕ)} (h : data ≠ []) :
    sortCampaigns data ≠ [] := by
  intro hnil
  have hperm := sortBy_perm (fun p q => decide (p.1 ≤ q.1)) data
  rw [sortCampaigns] at hnil
  rw [hnil] at hperm
  exact h hperm.symm.eq_nil

theorem mem_sortCampaigns {data : List (ℤ × List ℕ)} {p : ℤ × List ℕ} :
    p ∈ sortCampaigns data ↔ p ∈ data :=
  mem_sortBy _ p data

theorem collectPair_shape {cs : List CampEntry} {tbl : List Line}
    (h : collectPair cs = some tbl) :
    ∃ avgs, averageRow (sortCampaigns (qualifying cs)) = some avgs ∧
      tbl = (sortCampaigns (qualifying cs)).map campaignLine ++ [avgLine avgs] ∧
      sortCampaigns (qualifying cs) ≠ [] := by
  unfold collectPair at h
  split at h
  · exact absurd h (by simp)
  case isFalse hq =>
    have hd : sortCampaigns (qualifying cs) ≠ [] := sortCampaigns_ne_nil hq
    have hmin : 0 < minColumns (sortCampaigns (qualifying cs)) :=
      minColumns_pos hd (fun p hp => extract_mem_qualifying (mem_sortCampaigns.mp hp))
    have havg : averageRow (sortCampaigns (qualifying cs))
        = some ((List.range (minColumns (sortCampaigns (qualifying cs)))).map
            (colAverage (sortCampaigns (qualifying cs)))) := by
      unfold averageRow
      rw [if_neg hd, if_pos hmin]
    refine ⟨_, havg, ?_, hd⟩
    rw [Option.some.injEq] at h
    rw [← h]
    unfold serializeTable
    rw [havg]

/-- C9: the log parser never returns an empty list (it signals no-data with
none instead), so every stored sample is nonempty, the minimum column count of
an emitted table is positive, and the branch that would omit the average line
is unreachable: every emitted data file has at least one campaign line and
exactly one average line. -/
theorem emitted_table_shape :
    (∀ lines, extract_branch_hit_counts lines ≠ some []) ∧
    (∀ (cs : List CampEntry) (tbl : List Line), collectPair cs = some tbl →
      1 ≤ (tbl.filter (fun l => decide (l.head? ≠ some avgTok))).length ∧
      (tbl.filter (fun l => decide (l.head? = some avgTok))).length = 1) := by
  constructor
  · exact extract_ne_some_nil
  · intro cs tbl h
    obtain ⟨avgs, -, htbl, hd⟩ := collectPair_shape h
    subst htbl
    have hcamp : ∀ l ∈ (sortCampaigns (qualifying cs)).map campaignLine,
        l.head? ≠ some avgTok := by
      intro l hl
      rw [List.mem_map] at hl
      obtain ⟨p, -, hpl⟩ := hl
      rw [← hpl]
      simp only [campaignLine, List.head?_cons, ne_eq, Option.some.injEq]
      exact intRepr_ne_avgTok p.1
    rw [List.filter_append, List.filter_append, List.length_append, List.length_append]
    have h1 : List.filter (fun l => decide (l.head? ≠ some avgTok))
        ((sortCampaigns (qualifying cs)).map campaignLine)
        = (sortCampaigns (qualifying cs)).map campaignLine := by
      apply List.filter_eq_self.mpr
      intro l hl
      simpa using hcamp l hl
    have h2 : List.filter (fun l => decide (l.head? = some avgTok))
        ((sortCampaigns (qualifying cs)).map campaignLine) = [] := by
      rw [List.filter_eq_nil_iff]
      intro l hl
      simpa using hcamp l hl
    have h3 : List.filter (fun l => decide (l.head? ≠ some avgTok)) [avgLine avgs] = [] := by
      simp [avgLine]
    have h4 : List.filter (fun l => decide (l.head? = some avgTok)) [avgLine avgs]
        = [avgLine avgs] := by
      simp [avgLine]
    rw [h1, h2, h3, h4]
    constructor
    · have : 0 < ((sortCampaigns (qualifying cs)).map campaignLine).length := by
        rw [List.length_map]
        exact List.length_pos.mpr hd
      simpa using this
    · simp

theorem colAverage_single : colAverage [((1 : ℤ), [55])] 0 = 55 := by
  simp [colAverage]

theorem averageRow_single : averageRow [((1 : ℤ), [55])] = some [(55 : ℚ)] := by
  unfold averageRow
  rw [if_neg (by decide), if_pos (by decide)]
  rw [show minColumns [((1 : ℤ), [55])] = 1 from rfl, show List.range 1 = [0] from rfl]
  simp only [List.map_cons, List.map_nil, colAverage_single]

theorem roundHalfEven_5500 : roundHalfEven ((100 : ℚ) * 55) = 5500 := by
  unfold roundHalfEven
  norm_num

theorem format2f_55 : format2f 55 = "55.00".data := by
  simp only [format2f, roundHalfEven_5500]
  decide

theorem serializeTable_single :
    serializeTable [((1 : ℤ), [55])] = [["1".data, "55".data], ["avg".data, "55.00".data]] := by
  unfold serializeTable
  rw [show sortCampaigns [((1 : ℤ), [55])] = [((1 : ℤ), [55])] from rfl, averageRow_single]
  simp only [List.map_cons, List.map_nil, avgLine]
  rw [format2f_55]
  decide

/-- C9 witness: one campaign directory whose log has one matching group with
count 55 produces the file `1 55` / `avg 55.00`: one campaign line and exactly
one average line. -/
theorem emitted_table_shape_witness :
    1 ≤ (([["1".data, "55".data], ["avg".data, "55.00".data]] : List Line).filter
        (fun l => decide (l.head? ≠ some avgTok))).length ∧
    (([["1".data, "55".data], ["avg".data, "55.00".data]] : List Line).filter
        (fun l => decide (l.head? = some avgTok))).length = 1 := by
  have hq : qualifying [CampEntry.cdir 1 (some
      ["lines.......: 50.0% (100 of 200 lines)".data,
       "functions...: 40.0% (20 of 50 functions)".data,
       "branches....: 50.0% (55 of 110 branches)".data])] = [((1 : ℤ), [55])] := by decide
  have hcp : collectPair [CampEntry.cdir 1 (some
      ["lines.......: 50.0% (100 of 200 lines)".data,
       "functions...: 40.0% (20 of 50 functions)".data,
       "branches....: 50.0% (55 of 110 branches)".data])]
      = some [["1".data, "55".data], ["avg".data, "55.00".data]] := by
    unfold collectPair
    rw [hq, if_neg (by decide), serializeTable_single]
  exact emitted_table_shape.2 _ _ hcp

theorem mapOpt_parseFloat_natRepr (vs : List ℕ) :
    mapOpt parseFloatTok (vs.map natRepr) = some (vs.map (fun n => ((n : ℕ) : ℚ))) := by
  induction vs with
  | nil => rfl
  | cons v vs ih =>
    simp only [List.map_cons, mapOpt, parseFloatTok_natRepr, ih, Option.map_some']

theorem mapOpt_parseFloat_format2f {avgs : List ℚ} (h : ∀ q ∈ avgs, 0 ≤ q) :
    mapOpt parseFloatTok (avgs.map format2f) = some (avgs.map round2) := by
  induction avgs with
  | nil => rfl
  | cons a as ih =>
    have ha : parseFloatTok (format2f a) = some (round2 a) :=
      parseFloatTok_format2f (h a (List.mem_cons_self a as))
    simp only [List.map_cons, mapOpt, ha,
      ih (fun q hq => h q (List.mem_cons_of_mem a hq)), Option.map_some']

theorem upsertA_of_not_mem {β : Type} {m : List (Tok × β)} {k : Tok} (v : β)
    (h : k ∉ m.map Prod.fst) : upsertA m k v = m ++ [(k, v)] := by
  induction m with
  | nil => rfl
  | cons p rest ih =>
    rw [List.map_cons, List.mem_cons] at h
    push_neg at h
    rw [upsertA, if_neg (fun hc => h.1 hc.symm), ih h.2]
    rfl

theorem deserLoop_campaign_lines :
    ∀ (d : List (ℤ × List ℕ)) (rest : List Line) (camps : List (Tok × List ℚ))
      (avg : Option (List ℚ)),
      (∀ p ∈ d, intRepr p.1 ∉ camps.map Prod.fst) →
      (d.map (fun p => intRepr p.1)).Nodup →
      deserLoop (d.map campaignLine ++ rest) camps avg
        = deserLoop rest
            (camps ++ d.map (fun p => (intRepr p.1, p.2.map (fun n => ((n : ℕ) : ℚ))))) avg := by
  intro d
  induction d with
  | nil => intro rest camps avg _ _; simp
  | cons p d ih =>
    intro rest camps avg hfresh hnd
    rw [List.map_cons] at hnd
    rw [List.nodup_cons] at hnd
    rw [List.map_cons, List.map_cons, List.cons_append]
    simp only [campaignLine]
    rw [deserLoop]
    simp only [mapOpt_parseFloat_natRepr]
    rw [if_neg (intRepr_ne_avgTok p.1),
      upsertA_of_not_mem _ (hfresh p (List.mem_cons_self p d)), ih _ _ _ ?_ hnd.2]
    · rw [List.append_assoc]
      rfl
    · intro q hq
      rw [List.map_append, List.mem_append]
      push_neg
      refine ⟨hfresh q (List.mem_cons_of_mem p hq), ?_⟩
      simp only [List.map_cons, List.map_nil, List.mem_singleton]
      intro hc
      exact hnd.1 (hc ▸ List.mem_map_of_mem (fun p => intRepr p.1) hq)

theorem averageRow_nonneg {data : List (ℤ × List ℕ)} {avgs : List ℚ}
    (h : averageRow data = some avgs) : ∀ q ∈ avgs, 0 ≤ q := by
  unfold averageRow at h
  split at h
  · simp at h
  · split at h
    · rw [Option.some.injEq] at h
      subst h
      intro q hq
      rw [List.mem_map] at hq
      obtain ⟨i, -, hiq⟩ := hq
      rw [← hiq]
      unfold colAverage
      apply div_nonneg
      · apply List.sum_nonneg
        intro x hx
        rw [List.mem_map] at hx
        obtain ⟨p, -, hpx⟩ := hx
        rw [← hpx]
        positivity
      · positivity
    · simp at h

theorem sortCampaigns_labels_nodup {cd : List (ℤ × List ℕ)}
    (hnd : (cd.map Prod.fst).Nodup) : ((sortCampaigns cd).map Prod.fst).Nodup :=
  ((sortBy_perm (fun (p q : ℤ × List ℕ) => decide (p.1 ≤ q.1)) cd).map Prod.fst).nodup_iff.mpr hnd

theorem sortCampaigns_sorted (cd : List (ℤ × List ℕ)) :
    ((sortCampaigns cd).map Prod.fst).Pairwise (fun a b => a ≤ b) := by
  have hpw := pairwise_sortBy (fun (p q : ℤ × List ℕ) => decide (p.1 ≤ q.1))
    (fun x y => by
      rcases le_total x.1 y.1 with h | h
      · exact Or.inl (by simpa using h)
      · exact Or.inr (by simpa using h))
    (fun x y z hxy hyz => by
      simp only [decide_eq_true_eq] at hxy hyz ⊢
      exact le_trans hxy hyz) cd
  rw [List.pairwise_map]
  exact hpw.imp (fun h => by simpa using h)

theorem serializeTable_of_avg_none {data : List (ℤ × List ℕ)}
    (h : averageRow (sortCampaigns data) = none) :
    serializeTable data = (sortCampaigns data).map campaignLine := by
  unfold serializeTable
  rw [h]
  simp

theorem serializeTable_of_avg_some {data : List (ℤ × List ℕ)} {avgs : List ℚ}
    (h : averageRow (sortCampaigns data) = some avgs) :
    serializeTable data = (sortCampaigns data).map campaignLine ++ [avgLine avgs] := by
  unfold serializeTable
  rw [h]

/-- C2: serializing a table (the writing side of collect_and_save_branch_data)
and then deserializing that text (the parse loop of plot_branch_graphs) yields
the campaign entries in ascending-by-integer-label order, every integer sample
value preserved exactly (as the equal float), and the average row preserved to
two-decimal precision: each average entry is read back as its value rounded to
the nearest hundredth.  Distinct labels is the standing precondition: sibling
campaign directories have distinct names. -/
theorem table_roundtrip (cd : List (ℤ × List ℕ)) (hnd : (cd.map Prod.fst).Nodup) :
    ∃ td, deserializeTable (serializeTable cd) = some td ∧
      td.campaigns = (sortCampaigns cd).map
        (fun p => (intRepr p.1, p.2.map (fun n => ((n : ℕ) : ℚ)))) ∧
      ((sortCampaigns cd).map Prod.fst).Pairwise (fun a b => a ≤ b) ∧
      td.avg = (averageRow (sortCampaigns cd)).map (fun l => l.map round2) := by
  have hndr : ((sortCampaigns cd).map (fun p => intRepr p.1)).Nodup := by
    have hmm : (sortCampaigns cd).map (fun p => intRepr p.1)
        = ((sortCampaigns cd).map Prod.fst).map intRepr := by
      rw [List.map_map]
      rfl
    rw [hmm]
    exact (sortCampaigns_labels_nodup hnd).map intRepr_injective
  cases havgc : averageRow (sortCampaigns cd) with
  | none =>
    refine ⟨⟨(sortCampaigns cd).map (fun p => (intRepr p.1, p.2.map (fun n => ((n : ℕ) : ℚ)))),
      none⟩, ?_, rfl, sortCampaigns_sorted cd, rfl⟩
    rw [serializeTable_of_avg_none havgc]
    unfold deserializeTable
    have hcl := deserLoop_campaign_lines (sortCampaigns cd) [] [] none (by simp) hndr
    rw [List.append_nil] at hcl
    rw [hcl, deserLoop]
    simp
  | some avgs =>
    refine ⟨⟨(sortCampaigns cd).map (fun p => (intRepr p.1, p.2.map (fun n => ((n : ℕ) : ℚ)))),
      some (avgs.map round2)⟩, ?_, rfl, sortCampaigns_sorted cd, rfl⟩
    rw [serializeTable_of_avg_some havgc]
    unfold deserializeTable
    rw [deserLoop_campaign_lines (sortCampaigns cd) [avgLine avgs] [] none (by simp) hndr]
    simp only [avgLine]
    rw [deserLoop]
    rw [mapOpt_parseFloat_format2f (averageRow_nonneg havgc)]
    simp [deserLoop]

/-- C2 witness: the two-campaign table with labels 2 and 1 round-trips with
ascending labels and values intact. -/
theorem table_roundtrip_witness :
    ∃ td, deserializeTable (serializeTable [((2 : ℤ), [3]), ((1 : ℤ), [10, 20])]) = some td ∧
      td.campaigns = (sortCampaigns [((2 : ℤ), [3]), ((1 : ℤ), [10, 20])]).map
        (fun p => (intRepr p.1, p.2.map (fun n => ((n : ℕ) : ℚ)))) ∧
      ((sortCampaigns [((2 : ℤ), [3]), ((1 : ℤ), [10, 20])]).map Prod.fst).Pairwise
        (fun a b => a ≤ b) ∧
      td.avg = (averageRow (sortCampaigns [((2 : ℤ), [3]), ((1 : ℤ), [10, 20])])).map
        (fun l => l.map round2) :=
  table_roundtrip [((2 : ℤ), [3]), ((1 : ℤ), [10, 20])] (by decide)

/-- C1 counterexample: for a flat data set of values all equal to 40 the code
computes margin = max(0.25 * 0, 50) = 50 — the `margin == 0` fallback cannot
fire after a `max` with 50 — so the Y-axis range is [-10, 90], not the
[30, 50] the claim's fallback rule predicts. -/
theorem yaxis_flat40_counterexample :
    yAxisRange [40, 40, 40, 40] = some (-10, 90) ∧
      some ((-10 : ℚ), (90 : ℚ)) ≠ some ((30 : ℚ), (50 : ℚ)) := by
  constructor
  · have hmn : pyMin [40, 40, 40, 40] = 40 := by
      simp [pyMin]
    have hmx : pyMax [40, 40, 40, 40] = 40 := by
      simp [pyMax]
    simp only [yAxisRange, hmn, hmx, if_neg (by simp : ¬([40, 40, 40, 40] : List ℚ) = [])]
    norm_num
  · intro hcon
    rw [Option.some.injEq, Prod.mk.injEq] at hcon
    norm_num at hcon

/-- C1 (amended): for every chart rendered from a nonempty value set the
Y-axis range is [min - margin, max + margin] with margin =
max(0.25 * (max - min), 50), in every case; since that margin is at least 50
it is never zero, so the flat-data fallback max(10, 0.01 * min) is dead code
and never applies. -/
theorem yaxis_margin (vals : List ℚ) (h : vals ≠ []) :
    yAxisRange vals = some
      (pyMin vals - max ((pyMax vals - pyMin vals) * (1/4)) 50,
       pyMax vals + max ((pyMax vals - pyMin vals) * (1/4)) 50) ∧
    max ((pyMax vals - pyMin vals) * (1/4)) 50 ≠ 0 := by
  have hm : (50 : ℚ) ≤ max ((pyMax vals - pyMin vals) * (1/4)) 50 := le_max_right _ _
  have hne : max ((pyMax vals - pyMin vals) * (1/4)) 50 ≠ 0 := by
    intro h0
    rw [h0] at hm
    norm_num at hm
  refine ⟨?_, hne⟩
  simp only [yAxisRange, if_neg h, if_neg hne]

/-- C1 witness: the amended rule at the flat data set of four 40s. -/
theorem yaxis_margin_witness :
    yAxisRange [40, 40, 40, 40] = some
      (pyMin [40, 40, 40, 40] - max ((pyMax [40, 40, 40, 40] - pyMin [40, 40, 40, 40]) * (1/4)) 50,
       pyMax [40, 40, 40, 40] + max ((pyMax [40, 40, 40, 40] - pyMin [40, 40, 40, 40]) * (1/4)) 50) ∧
    max ((pyMax [40, 40, 40, 40] - pyMin [40, 40, 40, 40]) * (1/4)) 50 ≠ 0 :=
  yaxis_margin [40, 40, 40, 40] (by simp)

/-- C10: the data file consisting of the single line `7` — one campaign with a
label and no values, no average line — is accepted by the table parser, yields
a point count of zero and an empty time-point list, and the renderer then
indexes the last element of that empty list and fails.  In a batch the failure
aborts all remaining files, although the later file alone renders fine: the
rendering operation is not total over the files the table store accepts. -/
theorem renderer_fails_on_valueless_campaign :
    deserializeTable [["7".data]] = some ⟨[("7".data, [])], none⟩ ∧
    renderNumPoints ⟨[("7".data, [])], none⟩ = 0 ∧
    timePoints 0 = [] ∧
    renderFile "t_a_branch_count".data [["7".data]] = FileOutcome.failed ∧
    plot_branch_graphs
      [("t_a_branch_count".data, [["7".data]]),
       ("t_b_branch_count".data, [["1".data, "5".data], ["avg".data, "5.00".data]])]
      = ([], true) ∧
    (∃ c, plot_branch_graphs
      [("t_b_branch_count".data, [["1".data, "5".data], ["avg".data, "5.00".data]])]
        = ([c], false)) :=
  ⟨rfl, rfl, rfl, rfl, rfl, ⟨_, rfl⟩⟩

theorem assoc_nodup_unique {β : Type} :
    ∀ {m : List (Tok × β)}, (m.map Prod.fst).Nodup →
      ∀ {k : Tok} {a b : β}, (k, a) ∈ m → (k, b) ∈ m → a = b := by
  intro m
  induction m with
  | nil => intro _ k a b ha _; simp at ha
  | cons p rest ih =>
    intro hnd k a b ha hb
    rw [List.map_cons, List.nodup_cons] at hnd
    rcases List.mem_cons.mp ha with ha | ha <;> rcases List.mem_cons.mp hb with hb | hb
    · exact congrArg Prod.snd (ha.trans hb.symm)
    · exfalso
      have hk : k ∈ rest.map Prod.fst := List.mem_map_of_mem Prod.fst hb
      rw [← ha] at hnd
      exact hnd.1 hk
    · exfalso
      have hk : k ∈ rest.map Prod.fst := List.mem_map_of_mem Prod.fst ha
      rw [← hb] at hnd
      exact hnd.1 hk
    · exact ih hnd.2 ha hb

/-- C7 counterexample: the accepted file `5 10 20` / `3 7` / `avg` has an
average row that is present but empty, so the claim's point count is 0 and
campaign `3` (one value, 1 ≥ 0) should be plotted; the code's truthiness test
treats the empty average row as absent, takes the first campaign's length 2 as
the point count, and plots only campaign `5`. -/
theorem series_inclusion_counterexample :
    ∃ td, deserializeTable [["5".data, "10".data, "20".data], ["3".data, "7".data], ["avg".data]]
        = some td ∧
      td.avg = some [] ∧
      specPointCount td = 0 ∧
      (∃ vs, ("3".data, vs) ∈ td.campaigns ∧ specPointCount td ≤ vs.length) ∧
      (plottedSeries td (renderNumPoints td)).map Prod.fst = ["5".data] := by
  refine ⟨_, rfl, rfl, rfl, ⟨_, List.mem_cons_of_mem _ (List.mem_cons_self _ _), Nat.zero_le _⟩,
    rfl⟩

/-- C7 (amended): in a per-(target, fuzzer) chart a campaign's series is
included exactly when its length reaches the chosen point count, where the
point count is the average row's length when a nonempty average row is present
— Python's `if avg_data:` treats a present-but-empty average row as absent —
and otherwise the length of the first-read campaign's series. -/
theorem series_included_iff_long_enough (td : TableData)
    (_hne : td.campaigns ≠ []) (hnd : (td.campaigns.map Prod.fst).Nodup)
    (l : Tok) (vs : List ℚ) (hmem : (l, vs) ∈ td.campaigns) :
    (match truthyAvg td with
      | some a => renderNumPoints td = a.length
      | none => renderNumPoints td = ((td.campaigns.head?).map (fun p => p.2.length)).getD 0) ∧
    ((∃ ws, (l, ws) ∈ plottedSeries td (renderNumPoints td)) ↔
      renderNumPoints td ≤ vs.length) := by
  constructor
  · cases h : truthyAvg td <;> simp [renderNumPoints, h]
  · constructor
    · intro hex
      obtain ⟨ws, hws⟩ := hex
      unfold plottedSeries at hws
      rw [List.mem_filterMap] at hws
      obtain ⟨p, hp, hpf⟩ := hws
      rw [mem_sortBy] at hp
      split at hpf
      case isTrue hlen =>
        rw [Option.some.injEq, Prod.mk.injEq] at hpf
        have hpl : p.1 = l := hpf.1
        have : p = (l, p.2) := by
          rw [← hpl]
        rw [this] at hp
        have := assoc_nodup_unique hnd hp hmem
        rw [← this]
        exact hlen
      case isFalse => simp at hpf
    · intro hlen
      refine ⟨vs.take (renderNumPoints td), ?_⟩
      unfold plottedSeries
      rw [List.mem_filterMap]
      refine ⟨(l, vs), (mem_sortBy _ _ _).mpr hmem, ?_⟩
      rw [if_pos hlen]

/-- C7 witness: in the table with campaigns 2 ↦ [5, 6], 1 ↦ [10] and average
row [7], the point count is the average row's length 1 and campaign 2 is
plotted exactly because its length reaches 1. -/
theorem series_included_iff_long_enough_witness :
    (match truthyAvg ⟨[("2".data, [5, 6]), ("1".data, [10])], some [7]⟩ with
      | some a =>
        renderNumPoints ⟨[("2".data, [5, 6]), ("1".data, [10])], some [7]⟩ = a.length
      | none =>
        renderNumPoints ⟨[("2".data, [5, 6]), ("1".data, [10])], some [7]⟩ =
          (((⟨[("2".data, [5, 6]), ("1".data, [10])], some [7]⟩ :
            TableData).campaigns.head?).map (fun p => p.2.length)).getD 0) ∧
    ((∃ ws, ("2".data, ws) ∈ plottedSeries ⟨[("2".data, [5, 6]), ("1".data, [10])], some [7]⟩
        (renderNumPoints ⟨[("2".data, [5, 6]), ("1".data, [10])], some [7]⟩)) ↔
      renderNumPoints ⟨[("2".data, [5, 6]), ("1".data, [10])], some [7]⟩ ≤
        ([(5 : ℚ), 6]).length) :=
  series_included_iff_long_enough ⟨[("2".data, [5, 6]), ("1".data, [10])], some [7]⟩
    (by simp) (by decide) "2".data [5, 6] (List.mem_cons_self _ _)

theorem deleteBCAux_nil (fuel : ℕ) : deleteBCAux fuel [] = [] := by
  cases fuel <;> rfl

theorem deleteBCAux_pat {fuel : ℕ} (h : 1 ≤ fuel) : deleteBCAux fuel bcPat = [] := by
  cases fuel with
  | zero => omega
  | succ f =>
    have hshape : (bcPat : List Char) = '_' :: bcPat.tail := rfl
    rw [hshape, deleteBCAux, if_pos (by decide),
      show bcPat.tail.drop (bcPat.length - 1) = [] from rfl]
    exact deleteBCAux_nil f

theorem deleteBCAux_append_pat :
    ∀ (w : List Char) (fuel : ℕ), (w ++ bcPat).length ≤ fuel →
      (∀ i, i < w.length → bcPat.isPrefixOf ((w ++ bcPat).drop i) = false) →
      deleteBCAux fuel (w ++ bcPat) = w := by
  intro w
  induction w with
  | nil =>
    intro fuel hfuel _
    rw [List.nil_append] at hfuel ⊢
    have h13 : bcPat.length = 13 := rfl
    exact deleteBCAux_pat (by omega)
  | cons c w ih =>
    intro fuel hfuel hocc
    have h0 : bcPat.isPrefixOf ((c :: w ++ bcPat).drop 0) = false :=
      hocc 0 (by simp)
    rw [List.drop_zero] at h0
    cases fuel with
    | zero => simp at hfuel
    | succ f =>
      rw [List.cons_append, deleteBCAux, if_neg (by rw [List.cons_append] at h0; simp [h0])]
      rw [ih f ?_ ?_]
      · rw [List.cons_append, List.length_cons] at hfuel
        omega
      · intro i hi
        have := hocc (i + 1) (by simp; omega)
        rw [List.cons_append, List.drop_succ_cons] at this
        exact this

theorem deleteBC_append_pat (w : List Char)
    (hocc : ∀ i, i < w.length → bcPat.isPrefixOf ((w ++ bcPat).drop i) = false) :
    deleteBC (w ++ bcPat) = w :=
  deleteBCAux_append_pat w (w ++ bcPat).length (le_refl _) hocc

theorem rsplitUnderscore_last {t f : List Char} (hf : '_' ∉ f) :
    rsplitUnderscore (t ++ '_' :: f) = some (t, f) := by
  unfold rsplitUnderscore
  have hrev : (t ++ '_' :: f).reverse = f.reverse ++ '_' :: t.reverse := by
    rw [List.reverse_append, List.reverse_cons, List.append_assoc]
    simp
  have hall : ∀ c ∈ f.reverse, (fun c => decide (c ≠ '_')) c = true := by
    intro c hc
    simp only [decide_eq_true_eq]
    intro hcu
    subst hcu
    exact hf (List.mem_reverse.mp hc)
  rw [hrev, dropWhile_append_cons _ _ _ _ hall (by simp),
    takeWhile_append_cons _ _ _ _ hall (by simp)]
  simp

/-- C5 counterexample: the table filename
`x_branch_count_y_afl_branch_count.txt` (stem
`x_branch_count_y_afl_branch_count`) decodes to target `x_y` — the code
removes every occurrence of `_branch_count` from the stem, not only the final
marker — while the claim's split of `x_branch_count_y_afl` at its last
underscore gives target `x_branch_count_y`. -/
theorem decode_replaces_all_occurrences :
    decodeStem "x_branch_count_y_afl_branch_count".data
        = some ("x_y".data, "afl".data) ∧
    rsplitUnderscore "x_branch_count_y_afl".data
        = some ("x_branch_count_y".data, "afl".data) ∧
    "x_y".data ≠ "x_branch_count_y".data := by
  refine ⟨by decide, by decide, by decide⟩

/-- C5 (amended): decoding removes every occurrence of `_branch_count` from
the stem and splits the remainder at its last underscore; whenever
`_branch_count` occurs in the stem only as the final marker and the fuzzer
name has no underscore, this is exactly the claim's rule — the target is
everything before the last underscore, the fuzzer name the remainder. -/
theorem decode_splits_at_last_underscore (t f : List Char) (hf : '_' ∉ f)
    (hocc : ∀ i, i < (t ++ '_' :: f).length →
      bcPat.isPrefixOf (((t ++ '_' :: f) ++ bcPat).drop i) = false) :
    decodeStem ((t ++ '_' :: f) ++ bcPat) = some (t, f) := by
  unfold decodeStem
  rw [deleteBC_append_pat _ hocc, rsplitUnderscore_last hf]

/-- C5 witness: `my_target_afl_branch_count` decodes to target `my_target`
and fuzzer `afl`. -/
theorem decode_splits_at_last_underscore_witness :
    decodeStem (("my_target".data ++ '_' :: "afl".data) ++ bcPat)
      = some ("my_target".data, "afl".data) :=
  decode_splits_at_last_underscore "my_target".data "afl".data (by decide) (by decide)

theorem upsertA_keys {β : Type} (k : Tok) (v : β) :
    ∀ m : List (Tok × β), (upsertA m k v).map Prod.fst =
      if k ∈ m.map Prod.fst then m.map Prod.fst else m.map Prod.fst ++ [k] := by
  intro m
  induction m with
  | nil => simp [upsertA]
  | cons p rest ih =>
    rw [upsertA]
    split
    case isTrue hpk =>
      have hkmem : k ∈ (p :: rest).map Prod.fst := by
        rw [List.map_cons, hpk]
        exact List.mem_cons_self _ _
      rw [if_pos hkmem]
      simp [hpk]
    case isFalse hpk =>
      rw [List.map_cons, List.map_cons, ih]
      by_cases hk : k ∈ rest.map Prod.fst
      · rw [if_pos hk, if_pos (List.mem_cons_of_mem _ hk)]
      · rw [if_neg hk, if_neg ?_, List.cons_append]
        rw [List.mem_cons]
        push_neg
        exact ⟨fun h => hpk h.symm, hk⟩

theorem upsertA_keys_nodup {β : Type} {m : List (Tok × β)} (k : Tok) (v : β)
    (h : (m.map Prod.fst).Nodup) : ((upsertA m k v).map Prod.fst).Nodup := by
  rw [upsertA_keys]
  by_cases hk : k ∈ m.map Prod.fst
  · rw [if_pos hk]
    exact h
  · rw [if_neg hk]
    apply List.Nodup.append h (List.nodup_singleton k)
    intro a ha hb
    rw [List.mem_singleton] at hb
    subst hb
    exact hk ha

theorem mem_upsertA {β : Type} (k : Tok) (v : β) :
    ∀ (m : List (Tok × β)), (m.map Prod.fst).Nodup → ∀ x : Tok × β,
      (x ∈ upsertA m k v ↔ x = (k, v) ∨ (x.1 ≠ k ∧ x ∈ m)) := by
  intro m
  induction m with
  | nil =>
    intro _ x
    simp [upsertA]
  | cons p rest ih =>
    intro hnd x
    rw [List.map_cons, List.nodup_cons] at hnd
    rw [upsertA]
    split
    case isTrue hpk =>
      constructor
      · intro hx
        rcases List.mem_cons.mp hx with hx | hx
        · exact Or.inl hx
        · refine Or.inr ⟨?_, List.mem_cons_of_mem p hx⟩
          intro hx1
          apply hnd.1
          have hxk : x.1 ∈ rest.map Prod.fst := List.mem_map_of_mem Prod.fst hx
          rw [hx1, ← hpk] at hxk
          exact hxk
      · intro hx
        rcases hx with hx | ⟨hx1, hx2⟩
        · exact hx ▸ List.mem_cons_self _ _
        · rcases List.mem_cons.mp hx2 with hx2 | hx2
          · exact absurd (hx2 ▸ hpk : x.1 = k) hx1
          · exact List.mem_cons_of_mem _ hx2
    case isFalse hpk =>
      constructor
      · intro hx
        rcases List.mem_cons.mp hx with hx | hx
        · refine Or.inr ⟨?_, hx ▸ List.mem_cons_self p rest⟩
          rw [hx]
          exact fun hc => hpk hc
        · rcases (ih hnd.2 x).mp hx with hx | ⟨hx1, hx2⟩
          · exact Or.inl hx
          · exact Or.inr ⟨hx1, List.mem_cons_of_mem p hx2⟩
      · intro hx
        rcases hx with hx | ⟨hx1, hx2⟩
        · exact List.mem_cons_of_mem p ((ih hnd.2 x).mpr (Or.inl hx))
        · rcases List.mem_cons.mp hx2 with hx2 | hx2
          · exact hx2 ▸ List.mem_cons_self p _
          · exact List.mem_cons_of_mem p ((ih hnd.2 x).mpr (Or.inr ⟨hx1, hx2⟩))

theorem upsertA_self_mem {β : Type} (k : Tok) (v : β) :
    ∀ m : List (Tok × β), (k, v) ∈ upsertA m k v := by
  intro m
  induction m with
  | nil => simp [upsertA]
  | cons p rest ih =>
    rw [upsertA]
    split
    · exact List.mem_cons_self _ _
    · exact List.mem_cons_of_mem p ih

theorem lookupA_mem {β : Type} : ∀ {m : List (Tok × β)} {k : Tok} {v : β},
    lookupA m k = some v → (k, v) ∈ m := by
  intro m
  induction m with
  | nil => intro k v h; simp [lookupA] at h
  | cons p rest ih =>
    intro k v h
    rw [lookupA] at h
    split at h
    case isTrue hpk =>
      rw [Option.some.injEq] at h
      rw [← hpk, ← h]
      exact List.mem_cons_self p rest
    case isFalse hpk => exact List.mem_cons_of_mem p (ih h)

theorem lookupA_eq_of_mem {β : Type} : ∀ {m : List (Tok × β)}, (m.map Prod.fst).Nodup →
    ∀ {k : Tok} {v : β}, (k, v) ∈ m → lookupA m k = some v := by
  intro m
  induction m with
  | nil => intro _ k v h; simp at h
  | cons p rest ih =>
    intro hnd k v h
    rw [List.map_cons, List.nodup_cons] at hnd
    rw [lookupA]
    rcases List.mem_cons.mp h with h | h
    · rw [if_pos (congrArg Prod.fst h).symm]
      rw [← h]
    · rw [if_neg ?_]
      · exact ih hnd.2 h
      · intro hpk
        apply hnd.1
        rw [hpk]
        exact List.mem_map_of_mem Prod.fst h

theorem mem_keys_of_lookupA {β : Type} {m : List (Tok × β)} {k : Tok}
    (h : k ∈ m.map Prod.fst) : ∃ v, lookupA m k = some v := by
  induction m with
  | nil => simp at h
  | cons p rest ih =>
    rw [List.map_cons, List.mem_cons] at h
    rw [lookupA]
    by_cases hpk : p.1 = k
    · exact ⟨p.2, if_pos hpk⟩
    · rw [if_neg hpk]
      rcases h with h | h
      · exact absurd h.symm hpk
      · exact ih h

theorem exists_getLast? {α : Type} : ∀ l : List α, l ≠ [] → ∃ x, l.getLast? = some x ∧ x ∈ l := by
  intro l
  induction l with
  | nil => intro h; exact absurd rfl h
  | cons a rest ih =>
    intro _
    cases rest with
    | nil => exact ⟨a, rfl, List.mem_cons_self a []⟩
    | cons b bs =>
      obtain ⟨x, hx, hmem⟩ := ih (by simp)
      exact ⟨x, by rw [List.getLast?_cons_cons]; exact hx, List.mem_cons_of_mem a hmem⟩

theorem timePoints_ne_nil {n : ℕ} (h : n ≠ 0) : timePoints n ≠ [] := by
  unfold timePoints
  simp only [ne_eq, List.map_eq_nil_iff, List.range_eq_nil]
  exact h

theorem two_mem_two_le_length {α : Type} {l : List α} {a b : α}
    (hab : a ≠ b) (ha : a ∈ l) (hb : b ∈ l) : 2 ≤ l.length := by
  cases l with
  | nil => simp at ha
  | cons x rest =>
    cases rest with
    | nil =>
      rw [List.mem_singleton] at ha hb
      exact absurd (ha.trans hb.symm) hab
    | cons y bs => simp

theorem upsertA_key_mem {β : Type} (m : List (Tok × β)) (k : Tok) (v : β) :
    k ∈ (upsertA m k v).map Prod.fst := by
  rw [upsertA_keys]
  by_cases hk : k ∈ m.map Prod.fst
  · rw [if_pos hk]
    exact hk
  · rw [if_neg hk]
    exact List.mem_append_right _ (List.mem_singleton_self k)

theorem compInsert_good {m : CompMap} (hg : GoodMap m) (t fz : Tok) (a : List ℚ) :
    GoodMap (compInsert m t fz a) := by
  obtain ⟨h1, h2⟩ := hg
  constructor
  · exact upsertA_keys_nodup t _ h1
  · intro p hp
    rcases (mem_upsertA t _ m h1 p).mp hp with hp | ⟨-, hp⟩
    · rw [hp]
      apply upsertA_keys_nodup
      cases hl : lookupA m t with
      | none => simp
      | some fs0 => exact h2 (t, fs0) (lookupA_mem hl)
    · exact h2 p hp

theorem compInsert_mono {m0 : CompMap} (hg : GoodMap m0) {t : Tok} {fs : List (Tok × List ℚ)}
    (hmem : (t, fs) ∈ m0) {fz : Tok} (hfz : fz ∈ fs.map Prod.fst) (t1 fz1 : Tok) (a1 : List ℚ) :
    ∃ fs', (t, fs') ∈ compInsert m0 t1 fz1 a1 ∧ fz ∈ fs'.map Prod.fst := by
  by_cases ht : t = t1
  · subst ht
    have hl : lookupA m0 t = some fs := lookupA_eq_of_mem hg.1 hmem
    refine ⟨upsertA fs fz1 a1, ?_, ?_⟩
    · unfold compInsert
      rw [hl]
      exact upsertA_self_mem t _ m0
    · rw [upsertA_keys]
      by_cases hm : fz1 ∈ fs.map Prod.fst
      · rw [if_pos hm]
        exact hfz
      · rw [if_neg hm]
        exact List.mem_append_left _ hfz
  · refine ⟨fs, ?_, hfz⟩
    unfold compInsert
    exact (mem_upsertA t1 _ m0 hg.1 (t, fs)).mpr (Or.inr ⟨ht, hmem⟩)

theorem compInsert_self {m0 : CompMap} (t fz : Tok) (a : List ℚ) :
    ∃ fs, (t, fs) ∈ compInsert m0 t fz a ∧ fz ∈ fs.map Prod.fst := by
  refine ⟨upsertA ((lookupA m0 t).getD []) fz a, ?_, ?_⟩
  · exact upsertA_self_mem t _ m0
  · exact upsertA_key_mem _ fz a

theorem compCollect_good : ∀ (files : List (List Char × List Line)) (m0 m : CompMap),
    compCollect files m0 = Except.ok m → GoodMap m0 → GoodMap m := by
  intro files
  induction files with
  | nil =>
    intro m0 m h hg
    rw [compCollect] at h
    simp only [Except.ok.injEq] at h
    rw [← h]
    exact hg
  | cons f rest ih =>
    intro m0 m h hg
    rw [compCollect] at h
    cases hp : compParseFile f.1 f.2 with
    | error e =>
      rw [hp] at h
      simp at h
    | ok o =>
      rw [hp] at h
      cases o with
      | none => exact ih _ _ h hg
      | some tfa => exact ih _ _ h (compInsert_good hg tfa.1 tfa.2.1 tfa.2.2)

theorem compCollect_sound : ∀ (files : List (List Char × List Line)) (m0 m : CompMap),
    compCollect files m0 = Except.ok m → GoodMap m0 →
    ∀ t fs fz a, (t, fs) ∈ m → (fz, a) ∈ fs →
      ((∃ fs0, (t, fs0) ∈ m0 ∧ (fz, a) ∈ fs0) ∨
        ∃ fl, fl ∈ files ∧ compParseFile fl.1 fl.2 = Except.ok (some (t, fz, a))) := by
  intro files
  induction files with
  | nil =>
    intro m0 m h hg t fs fz a hm hf
    rw [compCollect] at h
    simp only [Except.ok.injEq] at h
    rw [← h] at hm
    exact Or.inl ⟨fs, hm, hf⟩
  | cons f rest ih =>
    intro m0 m h hg t fs fz a hm hf
    rw [compCollect] at h
    cases hp : compParseFile f.1 f.2 with
    | error e =>
      rw [hp] at h
      simp at h
    | ok o =>
      rw [hp] at h
      cases o with
      | none =>
        rcases ih _ _ h hg t fs fz a hm hf with h1 | ⟨fl, hfl, hfp⟩
        · exact Or.inl h1
        · exact Or.inr ⟨fl, List.mem_cons_of_mem f hfl, hfp⟩
      | some tfa =>
        rcases ih _ _ h (compInsert_good hg _ _ _) t fs fz a hm hf with h1 | ⟨fl, hfl, hfp⟩
        · obtain ⟨fs0, hfs0, hfzin⟩ := h1
          rcases (mem_upsertA tfa.1 _ m0 hg.1 (t, fs0)).mp hfs0 with he | ⟨-, hmem⟩
          · have ht1 : t = tfa.1 := congrArg Prod.fst he
            have hfs1 : fs0 = upsertA ((lookupA m0 tfa.1).getD []) tfa.2.1 tfa.2.2 :=
              congrArg Prod.snd he
            have holdnd : (((lookupA m0 tfa.1).getD []).map Prod.fst).Nodup := by
              cases hl : lookupA m0 tfa.1 with
              | none => simp
              | some fs1 => exact hg.2 (tfa.1, fs1) (lookupA_mem hl)
            rw [hfs1] at hfzin
            rcases (mem_upsertA tfa.2.1 tfa.2.2 _ holdnd (fz, a)).mp hfzin with
              he2 | ⟨-, hmem2⟩
            · refine Or.inr ⟨f, List.mem_cons_self f rest, ?_⟩
              have hfz2 : fz = tfa.2.1 := congrArg Prod.fst he2
              have ha2 : a = tfa.2.2 := congrArg Prod.snd he2
              rw [hp, ht1, hfz2, ha2]
            · cases hl : lookupA m0 tfa.1 with
              | none =>
                rw [hl] at hmem2
                simp at hmem2
              | some fs1 =>
                rw [hl] at hmem2
                refine Or.inl ⟨fs1, ?_, hmem2⟩
                rw [ht1]
                exact lookupA_mem hl
          · exact Or.inl ⟨fs0, hmem, hfzin⟩
        · exact Or.inr ⟨fl, List.mem_cons_of_mem f hfl, hfp⟩

theorem compCollect_complete : ∀ (files : List (List Char × List Line)) (m0 m : CompMap),
    compCollect files m0 = Except.ok m → GoodMap m0 →
    ((∀ fl ∈ files, ∀ t fz a, compParseFile fl.1 fl.2 = Except.ok (some (t, fz, a)) →
      ∃ fs, (t, fs) ∈ m ∧ fz ∈ fs.map Prod.fst) ∧
     (∀ t fs, (t, fs) ∈ m0 → ∀ fz, fz ∈ fs.map Prod.fst →
      ∃ fs', (t, fs') ∈ m ∧ fz ∈ fs'.map Prod.fst)) := by
  intro files
  induction files with
  | nil =>
    intro m0 m h hg
    rw [compCollect] at h
    simp only [Except.ok.injEq] at h
    rw [← h]
    exact ⟨by simp, fun t fs hm fz hfz => ⟨fs, hm, hfz⟩⟩
  | cons f rest ih =>
    intro m0 m h hg
    rw [compCollect] at h
    cases hp : compParseFile f.1 f.2 with
    | error e =>
      rw [hp] at h
      simp at h
    | ok o =>
      rw [hp] at h
      cases o with
      | none =>
        obtain ⟨ih1, ih2⟩ := ih _ _ h hg
        refine ⟨?_, ih2⟩
        intro fl hfl t fz a hfp
        rcases List.mem_cons.mp hfl with hfl | hfl
        · rw [hfl, hp] at hfp
          simp at hfp
        · exact ih1 fl hfl t fz a hfp
      | some tfa =>
        obtain ⟨ih1, ih2⟩ := ih _ _ h (compInsert_good hg _ _ _)
        refine ⟨?_, ?_⟩
        · intro fl hfl t fz a hfp
          rcases List.mem_cons.mp hfl with hfl | hfl
          · rw [hfl, hp] at hfp
            simp only [Except.ok.injEq, Option.some.injEq] at hfp
            obtain ⟨fsi, hfsi, hfzi⟩ := @compInsert_self m0 tfa.1 tfa.2.1 tfa.2.2
            have hres := ih2 tfa.1 fsi hfsi tfa.2.1 hfzi
            have ht2 : t = tfa.1 := congrArg Prod.fst hfp.symm
            have hfz2 : fz = tfa.2.1 := congrArg Prod.fst (congrArg Prod.snd hfp.symm)
            rw [ht2, hfz2]
            exact hres
          · exact ih1 fl hfl t fz a hfp
        · intro t fs hm fz hfz
          obtain ⟨fs', hfs', hfz'⟩ := compInsert_mono hg hm hfz tfa.1 tfa.2.1 tfa.2.2
          exact ih2 t fs' hfs' fz hfz'

theorem renderComparison_ok {fs : List (Tok × List ℚ)} (hne : ∀ p ∈ fs, p.2 ≠ [])
    (hfs : fs ≠ []) :
    ∃ c, renderComparison fs = Except.ok c ∧ c.lines = compLines fs := by
  have hsne : sortBy (fun p q => lexLe p.1 q.1) fs ≠ [] := by
    intro hnil
    have hperm := sortBy_perm (fun (p q : Tok × List ℚ) => lexLe p.1 q.1) fs
    rw [hnil] at hperm
    exact hfs hperm.symm.eq_nil
  obtain ⟨lastF, hlast, hlmem⟩ := exists_getLast? _ hsne
  have hlmem2 : lastF ∈ fs := (mem_sortBy _ _ _).mp hlmem
  have htne : timePoints lastF.2.length ≠ [] := by
    apply timePoints_ne_nil
    intro h0
    exact hne lastF hlmem2 (List.length_eq_zero.mp h0)
  obtain ⟨x, hx, -⟩ := exists_getLast? _ htne
  refine ⟨{ lines := compLines fs,
            yRange := yAxisRange (((sortBy (fun p q => lexLe p.1 q.1) fs).map Prod.snd).flatten),
            xMax := x }, ?_, rfl⟩
  unfold renderComparison
  rw [hlast]
  simp only [hx]

theorem compLoop_spec {m : CompMap} (_hg : GoodMap m)
    (hne : ∀ t fs, (t, fs) ∈ m → ∀ fz a, (fz, a) ∈ fs → a ≠ []) :
    ∀ ts : List Tok, (∀ t ∈ ts, t ∈ m.map Prod.fst) →
      (compLoop m ts).2 = false ∧
      (∀ t c, (t, c) ∈ (compLoop m ts).1 →
        ∃ fs, (t, fs) ∈ m ∧ 2 ≤ fs.length ∧ c.lines = compLines fs) ∧
      (∀ t, t ∈ ts → (∀ fs, (t, fs) ∈ m → 2 ≤ fs.length) →
        ∃ c, (t, c) ∈ (compLoop m ts).1) := by
  intro ts
  induction ts with
  | nil =>
    intro _
    refine ⟨rfl, ?_, ?_⟩
    · intro t c htc
      simp [compLoop] at htc
    · intro t ht
      simp at ht
  | cons t0 rest ih =>
    intro hts
    have ht0 : t0 ∈ m.map Prod.fst := hts t0 (List.mem_cons_self t0 rest)
    obtain ⟨fs0, hl0⟩ := mem_keys_of_lookupA ht0
    have hfs0mem : (t0, fs0) ∈ m := lookupA_mem hl0
    obtain ⟨hrec1, hrec2, hrec3⟩ := ih (fun t ht => hts t (List.mem_cons_of_mem t0 ht))
    rw [compLoop]
    by_cases hlen : ((lookupA m t0).getD []).length ≤ 1
    · rw [if_pos hlen]
      refine ⟨hrec1, hrec2, ?_⟩
      intro t ht hcond
      rcases List.mem_cons.mp ht with ht | ht
      · exfalso
        have h2 := hcond fs0 (ht ▸ hfs0mem)
        rw [hl0] at hlen
        simp only [Option.getD_some] at hlen
        omega
      · exact hrec3 t ht hcond
    · rw [if_neg hlen]
      rw [hl0] at hlen ⊢
      simp only [Option.getD_some] at hlen ⊢
      have hfs0ne : fs0 ≠ [] := by
        intro hnil
        rw [hnil] at hlen
        simp at hlen
      have hfzne : ∀ p ∈ fs0, p.2 ≠ [] := fun p hp => hne t0 fs0 hfs0mem p.1 p.2 hp
      obtain ⟨c0, hc0, hc0lines⟩ := renderComparison_ok hfzne hfs0ne
      rw [hc0]
      refine ⟨hrec1, ?_, ?_⟩
      · intro t c htc
        rcases List.mem_cons.mp htc with htc | htc
        · have ht : t = t0 := congrArg Prod.fst htc
          have hcc : c = c0 := congrArg Prod.snd htc
          subst ht
          refine ⟨fs0, hfs0mem, by omega, by rw [hcc, hc0lines]⟩
        · exact hrec2 t c htc
      · intro t ht hcond
        rcases List.mem_cons.mp ht with ht | ht
        · subst ht
          exact ⟨c0, List.mem_cons_self _ _⟩
        · obtain ⟨c, hcmem⟩ := hrec3 t ht hcond
          exact ⟨c, List.mem_cons_of_mem _ hcmem⟩

/-- C6 counterexample: the two table files `t_f_branch_count.txt` and
`t_f_branch_count_branch_count.txt` both contain an average row and both
decode — through the remove-every-occurrence rule — to target `t` and the same
fuzzer `f`, so the fuzzer dict for `t` has a single entry and no comparison
chart is produced, although 2 of target `t`'s table files contain an average
row. -/
theorem comparison_two_files_one_fuzzer :
    plot_comparison_graphs
      [("t_f_branch_count".data, [["1".data, "5".data], ["avg".data, "5.00".data]]),
       ("t_f_branch_count_branch_count".data, [["1".data, "6".data], ["avg".data, "6.00".data]])]
      = ([], false) ∧
    tableFilesWithAvgRow "t".data
      [("t_f_branch_count".data, [["1".data, "5".data], ["avg".data, "5.00".data]]),
       ("t_f_branch_count_branch_count".data, [["1".data, "6".data], ["avg".data, "6.00".data]])]
      = 2 :=
  ⟨rfl, rfl⟩

/-- C6 (amended): when the comparison pass parses without error and every
collected average row is nonempty, the pass completes without aborting, and a
comparison chart is produced for a target exactly when at least two of that
target's table files contain an average row AND decode to two distinct fuzzer
names (two files decoding to the same (target, fuzzer) collapse to one dict
entry); each produced chart shows only the per-fuzzer average lines, in sorted
fuzzer order, colored by cycling through the fixed 8-color palette. -/
theorem comparison_chart_iff_two_fuzzers (files : List (List Char × List Line)) (m : CompMap)
    (hc : compCollect files [] = Except.ok m)
    (hne : ∀ t fs, (t, fs) ∈ m → ∀ fz a, (fz, a) ∈ fs → a ≠ []) :
    (plot_comparison_graphs files).2 = false ∧
    (∀ t : Tok, (∃ c, (t, c) ∈ (plot_comparison_graphs files).1) ↔
      (∃ f1 f2 fz1 fz2 a1 a2, f1 ∈ files ∧ f2 ∈ files ∧
        compParseFile f1.1 f1.2 = Except.ok (some (t, fz1, a1)) ∧
        compParseFile f2.1 f2.2 = Except.ok (some (t, fz2, a2)) ∧ fz1 ≠ fz2)) ∧
    (∀ t c, (t, c) ∈ (plot_comparison_graphs files).1 →
      ∃ fs, (t, fs) ∈ m ∧ c.lines = compLines fs ∧ palette.length = 8) := by
  have hgood : GoodMap m := compCollect_good files [] m hc ⟨List.nodup_nil, by simp⟩
  have hpl : plot_comparison_graphs files = compLoop m (sortBy lexLe (m.map Prod.fst)) := by
    unfold plot_comparison_graphs
    rw [hc]
  have hts : ∀ t ∈ sortBy lexLe (m.map Prod.fst), t ∈ m.map Prod.fst :=
    fun t ht => (mem_sortBy lexLe t _).mp ht
  obtain ⟨hs1, hs2, hs3⟩ := compLoop_spec hgood hne (sortBy lexLe (m.map Prod.fst)) hts
  rw [hpl]
  refine ⟨hs1, ?_, ?_⟩
  · intro t
    constructor
    · intro hex
      obtain ⟨c, hch⟩ := hex
      obtain ⟨fs, hfsm, hfslen, -⟩ := hs2 t c hch
      obtain ⟨p, q, prest, hfs⟩ : ∃ p q prest, fs = p :: q :: prest := by
        cases fs with
        | nil => simp at hfslen
        | cons p rest1 =>
          cases rest1 with
          | nil => simp at hfslen
          | cons q prest => exact ⟨p, q, prest, rfl⟩
      have hpq : p.1 ≠ q.1 := by
        have := hgood.2 (t, fs) hfsm
        rw [hfs] at this
        simp only [List.map_cons, List.nodup_cons, List.mem_cons] at this
        intro hcon
        exact this.1 (Or.inl hcon)
      have hpmem : (p.1, p.2) ∈ fs := by
        rw [hfs]
        exact List.mem_cons_self p _
      have hqmem : (q.1, q.2) ∈ fs := by
        rw [hfs]
        exact List.mem_cons_of_mem p (List.mem_cons_self q _)
      rcases compCollect_sound files [] m hc ⟨List.nodup_nil, by simp⟩ t fs p.1 p.2 hfsm hpmem
        with h1 | ⟨f1, hf1, hp1⟩
      · simp at h1
      rcases compCollect_sound files [] m hc ⟨List.nodup_nil, by simp⟩ t fs q.1 q.2 hfsm hqmem
        with h2 | ⟨f2, hf2, hp2⟩
      · simp at h2
      exact ⟨f1, f2, p.1, q.1, p.2, q.2, hf1, hf2, hp1, hp2, hpq⟩
    · intro hex
      obtain ⟨f1, f2, fz1, fz2, a1, a2, hf1, hf2, hp1, hp2, hfz12⟩ := hex
      obtain ⟨hcompl, -⟩ := compCollect_complete files [] m hc ⟨List.nodup_nil, by simp⟩
      obtain ⟨fsa, hfsa, hfza⟩ := hcompl f1 hf1 t fz1 a1 hp1
      obtain ⟨fsb, hfsb, hfzb⟩ := hcompl f2 hf2 t fz2 a2 hp2
      have hfsab : fsa = fsb := assoc_nodup_unique hgood.1 hfsa hfsb
      rw [← hfsab] at hfzb
      apply hs3 t ((mem_sortBy lexLe t _).mpr (List.mem_map_of_mem Prod.fst hfsa))
      intro fs hfsm
      have : fs = fsa := assoc_nodup_unique hgood.1 hfsm hfsa
      rw [this, ← List.length_map fsa Prod.fst]
      exact two_mem_two_le_length hfz12 hfza hfzb
  · intro t c hch
    obtain ⟨fs, hfsm, -, hlines⟩ := hs2 t c hch
    exact ⟨fs, hfsm, hlines, rfl⟩

/-- C6 witness: two files for target `t` with distinct fuzzers `a` and `b`,
each with an average row, produce a comparison chart for `t` and no abort. -/
theorem comparison_chart_iff_two_fuzzers_witness :
    (plot_comparison_graphs
      [("t_a_branch_count".data, [["avg".data, "1.00".data]]),
       ("t_b_branch_count".data, [["avg".data, "2.00".data]])]).2 = false ∧
    (∃ c, ("t".data, c) ∈ (plot_comparison_graphs
      [("t_a_branch_count".data, [["avg".data, "1.00".data]]),
       ("t_b_branch_count".data, [["avg".data, "2.00".data]])]).1) := by
  have hmeq : compCollect
      [("t_a_branch_count".data, [["avg".data, "1.00".data]]),
       ("t_b_branch_count".data, [["avg".data, "2.00".data]])] []
      = Except.ok [("t".data,
          [("a".data, [((1 : ℕ) : ℚ) + ((0 : ℕ) : ℚ) / (10 : ℚ) ^ 2]),
           ("b".data, [((2 : ℕ) : ℚ) + ((0 : ℕ) : ℚ) / (10 : ℚ) ^ 2])])] := rfl
  have h := comparison_chart_iff_two_fuzzers
    [("t_a_branch_count".data, [["avg".data, "1.00".data]]),
     ("t_b_branch_count".data, [["avg".data, "2.00".data]])] _ hmeq ?hne
  case hne =>
    intro t fs hm fz a hf
    simp only [List.mem_cons, List.not_mem_nil, or_false] at hm
    have hfs : fs = [("a".data, [((1 : ℕ) : ℚ) + ((0 : ℕ) : ℚ) / (10 : ℚ) ^ 2]),
        ("b".data, [((2 : ℕ) : ℚ) + ((0 : ℕ) : ℚ) / (10 : ℚ) ^ 2])] :=
      congrArg Prod.snd hm
    rw [hfs] at hf
    simp only [List.mem_cons, List.not_mem_nil, or_false] at hf
    rcases hf with hf | hf
    · have ha : a = [((1 : ℕ) : ℚ) + ((0 : ℕ) : ℚ) / (10 : ℚ) ^ 2] :=
        congrArg Prod.snd hf
      rw [ha]
      simp
    · have ha : a = [((2 : ℕ) : ℚ) + ((0 : ℕ) : ℚ) / (10 : ℚ) ^ 2] :=
        congrArg Prod.snd hf
      rw [ha]
      simp
  refine ⟨h.1, (h.2.1 "t".data).mpr ?_⟩
  exact ⟨("t_a_branch_count".data, [["avg".data, "1.00".data]]),
    ("t_b_branch_count".data, [["avg".data, "2.00".data]]),
    "a".data, "b".data, _, _,
    List.mem_cons_self _ _, List.mem_cons_of_mem _ (List.mem_cons_self _ _),
    rfl, rfl, by decide⟩

/-- C8: when the coverage directory is absent or has no entries, the pipeline
reports error status 1 before any work — the error result carries no tables
and no charts; otherwise it proceeds into the aggregation and rendering
phases and returns their outputs. -/
theorem main_exits_on_missing_input :
    (∀ cov : Option (List FuzzerEntry), (cov = none ∨ cov = some []) →
      mainRun cov = Except.error 1) ∧
    (∀ fs : List FuzzerEntry, fs ≠ [] →
      mainRun (some fs) = Except.ok (collect_and_save_branch_data fs,
        plot_branch_graphs (collect_and_save_branch_data fs),
        plot_comparison_graphs (collect_and_save_branch_data fs))) := by
  constructor
  · intro cov h
    rcases h with h | h <;> rw [h] <;> rfl
  · intro fs h
    cases fs with
    | nil => exact absurd rfl h
    | cons fe rest => rfl

/-- C8 witness: a missing coverage directory and an empty one both exit with
status 1; a coverage directory with one entry proceeds to the aggregation and
rendering phases. -/
theorem main_exits_on_missing_input_witness :
    mainRun none = Except.error 1 ∧
    mainRun (some []) = Except.error 1 ∧
    mainRun (some [FuzzerEntry.nondir]) = Except.ok
      (collect_and_save_branch_data [FuzzerEntry.nondir],
       plot_branch_graphs (collect_and_save_branch_data [FuzzerEntry.nondir]),
       plot_comparison_graphs (collect_and_save_branch_data [FuzzerEntry.nondir])) :=
  ⟨main_exits_on_missing_input.1 none (Or.inl rfl),
   main_exits_on_missing_input.1 (some []) (Or.inr rfl),
   main_exits_on_missing_input.2 [FuzzerEntry.nondir] (by simp)⟩
